import Mathlib

/-!
A shallow embedding of `main.go` of mucom88torym2612.

The converter reads a MUCOM88 voice bank (a sequence of 32-byte records),
decodes each record into FM synthesis parameters and a name, and writes one
RYM2612 preset per record.

Modelling conventions

* A Go `byte` is a `Fin 256`; the bit operations of the accessors are done on
  the underlying natural number (`&` and `>>` never leave the byte range). A Go
  `int` that can be negative (`pc`, the folded detune, the levels) is an `Int`.
* A Go `string` that is valid UTF-8 is a Lean `String` (a sequence of code
  points); `[]rune(s)` is `s.data`, `len(s)` is `s.utf8ByteSize`. Every string
  the program builds is valid UTF-8.
* Library functions that are not part of the repository (`unicode.ToLower`,
  `kana.KanaToRomaji`, `sanitize.BaseName`, `filepath.Join`) are parameters,
  collected in `Lib`. The verbs `%03d`, `%d` and `%.1f` of `fmt`,
  `strings.TrimSpace`, `strings.Split` and `strings.Contains` are modelled.
* The global `keywordToCategory` is filled by `init` from a map, whose iteration
  order is not fixed, and sorted by `sort.Slice`, which is not stable; functions
  that read it take it as an argument, and `IsInitResult` says what `init`
  guarantees about it.
* The outcome of the file operations is given by a `Disk`; `convert` returns the
  operations it performed on the output directory, or the error.
-/

namespace Mucom88

/-! ## Record layout -/

/-- The Go type `mucom88VoiceFormat`, an array of exactly 32 bytes. -/
structure mucom88VoiceFormat where
  byte : Fin 32 → Fin 256

/-- The indexing expression `v[i]` for an index known to be in range. -/
def mucom88VoiceFormat.get (v : mucom88VoiceFormat) (i : Nat) (h : i < 32) : Nat :=
  (v.byte ⟨i, h⟩).val

/-- A record given by the list of its bytes (missing bytes are zero). -/
def mucom88VoiceFormat.ofList (l : List (Fin 256)) : mucom88VoiceFormat :=
  ⟨fun i => l.getD i.val 0⟩

/-- The Go function `op2offset`: `(op&1)<<1 | (op&2)>>1`. -/
def op2offset (op : Nat) : Nat :=
  ((op &&& 1) <<< 1) ||| ((op &&& 2) >>> 1)

theorem op2offset_lt (op : Nat) : op2offset op < 4 := by
  unfold op2offset
  have h1 : op &&& 1 ≤ 1 := Nat.and_le_right
  have h2 : op &&& 2 ≤ 2 := Nat.and_le_right
  have a : (op &&& 1) <<< 1 < 2 ^ 2 := by
    rw [Nat.shiftLeft_eq]; omega
  have b : (op &&& 2) >>> 1 < 2 ^ 2 := by
    rw [Nat.shiftRight_eq_div_pow]; omega
  exact Nat.or_lt_two_pow a b

/-- The index `base + op2offset(op)` of an operator field lies inside the record. -/
theorem opIdx_lt (base op : Nat) (hb : base ≤ 28) : base + op2offset op < 32 := by
  have := op2offset_lt op
  omega

namespace mucom88VoiceFormat

/-- Go: `int(v[1+op2offset(op)] & 15)`. -/
def ml (v : mucom88VoiceFormat) (op : Nat) : Nat :=
  v.get (1 + op2offset op) (opIdx_lt 1 op (by decide)) &&& 15

/-- Go: `int(v[1+op2offset(op)] >> 4 & 7)`. -/
def dt (v : mucom88VoiceFormat) (op : Nat) : Nat :=
  (v.get (1 + op2offset op) (opIdx_lt 1 op (by decide)) >>> 4) &&& 7

/-- Go: `int(v[5+op2offset(op)] & 127)`. -/
def tl (v : mucom88VoiceFormat) (op : Nat) : Nat :=
  v.get (5 + op2offset op) (opIdx_lt 5 op (by decide)) &&& 127

/-- Go: `int(v[9+op2offset(op)] & 31)`. -/
def ar (v : mucom88VoiceFormat) (op : Nat) : Nat :=
  v.get (9 + op2offset op) (opIdx_lt 9 op (by decide)) &&& 31

/-- Go: `int(v[9+op2offset(op)] >> 6)`. -/
def ks (v : mucom88VoiceFormat) (op : Nat) : Nat :=
  v.get (9 + op2offset op) (opIdx_lt 9 op (by decide)) >>> 6

/-- Go: `int(v[13+op2offset(op)] & 31)`. -/
def dr (v : mucom88VoiceFormat) (op : Nat) : Nat :=
  v.get (13 + op2offset op) (opIdx_lt 13 op (by decide)) &&& 31

/-- Go: `int(v[13+op2offset(op)] >> 7)`. -/
def am (v : mucom88VoiceFormat) (op : Nat) : Nat :=
  v.get (13 + op2offset op) (opIdx_lt 13 op (by decide)) >>> 7

/-- Go: `int(v[17+op2offset(op)] & 31)`. -/
def sr (v : mucom88VoiceFormat) (op : Nat) : Nat :=
  v.get (17 + op2offset op) (opIdx_lt 17 op (by decide)) &&& 31

/-- Go: `int(v[21+op2offset(op)] & 15)`. -/
def rr (v : mucom88VoiceFormat) (op : Nat) : Nat :=
  v.get (21 + op2offset op) (opIdx_lt 21 op (by decide)) &&& 15

/-- Go: `int(v[21+op2offset(op)] >> 4)`. -/
def sl (v : mucom88VoiceFormat) (op : Nat) : Nat :=
  v.get (21 + op2offset op) (opIdx_lt 21 op (by decide)) >>> 4

/-- Go: `int(v[25] & 7)`. -/
def al (v : mucom88VoiceFormat) : Nat :=
  v.get 25 (by decide) &&& 7

/-- Go: `int(v[25] >> 3 & 7)`. -/
def fb (v : mucom88VoiceFormat) : Nat :=
  (v.get 25 (by decide) >>> 3) &&& 7

end mucom88VoiceFormat

/-! ## Character tables -/

/-- The glyph table `chars` for name bytes with the high bit set. -/
def chars : List Char :=
  ("▁▂▃▄▅▆▇█▏▎▍▌▋▊▉┼" ++
   "┴┬┤├▔─│▕┌┐└┘╭╮╰╯" ++
   " 。「」、・ヲァィゥェォャュョッ" ++
   "ーアイウエオカキクケコサシスセソ" ++
   "タチツテトナニヌネノハヒフヘホマ" ++
   "ミムメモヤユヨラリルレロワン゛゜" ++
   "═╞╪╡◢◣◥◤♠♥♦♣●○╱╲" ++
   "╳円年月日時分秒        ").data

theorem chars_length : chars.length = 128 := rfl

/-- The table `dakutens`: base kana at even positions, voiced kana at odd ones. -/
def dakutens : List Char :=
  ("かがきぎくぐけげこごさざしじすずせぜそぞただちぢつづてでとどはばひびふぶへべほぼうゔ" ++
   "カガキギクグケゲコゴサザシジスズセゼソゾタダチヂツヅテデトドハバヒビフブヘベホボウヴ").data

/-- The table `handakutens`: base kana at even positions, semi-voiced kana at odd ones. -/
def handakutens : List Char :=
  ("はぱひぴふぷへぺほぽ" ++
   "ハパヒピフプヘペホポ").data

/-! ## Diacritic combination -/

/-- The inner loop of `combineDakutens`: `for i := 0; i < len(table); i += 2`, which
stops at the first even position whose entry equals `c` and yields the entry after it.
Both tables have even length, so the entry after a base always exists. -/
def findPair : List Char → Char → Option Char
  | a :: b :: rest, c => if c = a then some b else findPair rest c
  | _, _ => none

/-- The base kana of a combination table: its entries at even positions. -/
def bases : List Char → List Char
  | a :: _ :: rest => a :: bases rest
  | _ => []

/-- The (base, counterpart) pairs of a combination table. -/
def pairs : List Char → List (Char × Char)
  | a :: b :: rest => (a, b) :: pairs rest
  | _ => []

/-- One iteration of the outer loop of `combineDakutens` on the rune `r`, with `result`
the runes produced so far. `table` is `none` for Go's `nil`; a hit of the inner loop
overwrites `result[n-1]` and sets `r = 0`, and the final `if 0 < r` appends `r`. -/
def combineStep (result : List Char) (r : Char) : List Char :=
  let table : Option (List Char) := if r = '゛' then some dakutens else none
  let table : Option (List Char) := if r = '゜' then some handakutens else table
  let hit : Option Char :=
    match result.getLast?, table with
    | some last, some t => findPair t last
    | _, _ => none
  match hit with
  | some c => result.dropLast ++ [c]
  | none => if 0 < r.toNat then result ++ [r] else result

/-- The Go function `combineDakutens`. -/
def combineDakutens (s : String) : String :=
  ⟨s.data.foldl combineStep []⟩

/-! ## Name decoding -/

/-- Go's `unicode.IsSpace`: the code points with the Unicode White_Space property. -/
def isSpace (c : Char) : Bool :=
  let n := c.toNat
  (0x09 ≤ n && n ≤ 0x0D) || n == 0x20 || n == 0x85 || n == 0xA0 || n == 0x1680 ||
  (0x2000 ≤ n && n ≤ 0x200A) || n == 0x2028 || n == 0x2029 || n == 0x202F ||
  n == 0x205F || n == 0x3000

/-- Go's `strings.TrimSpace`: leading and trailing white space removed. -/
def trimSpace (s : String) : String :=
  ⟨(s.data.dropWhile isSpace).rdropWhile isSpace⟩

/-- The six name bytes `v[26]`, ..., `v[31]` in the order the loop of `name` reads them. -/
def mucom88VoiceFormat.nameBytes (v : mucom88VoiceFormat) : List (Fin 256) :=
  [v.byte 26, v.byte 27, v.byte 28, v.byte 29, v.byte 30, v.byte 31]

/-- The loop of `name()` over the remaining name bytes, `s` being the string built so
far: a zero byte breaks, a byte from 0x80 appends `chars[b-0x80]`, any other byte
appends the character with that code point. -/
def nameLoop : List (Fin 256) → String → String
  | [], s => s
  | b :: rest, s =>
    if b.val = 0 then s
    else if h : 0x80 ≤ b.val then
      nameLoop rest (s.push (chars.get ⟨b.val - 0x80, by rw [chars_length]; omega⟩))
    else nameLoop rest (s.push (Char.ofNat b.val))

/-- The Go method `name`. -/
def mucom88VoiceFormat.name (v : mucom88VoiceFormat) : String :=
  trimSpace (nameLoop v.nameBytes "")

/-- The decoding of one name byte as the specification words it: a byte from 0x80 is
the glyph `chars[b-0x80]`, a smaller byte is the character with code point `b`. -/
def decodeByte (b : Fin 256) : Char :=
  if 0x80 ≤ b.val then chars.getD (b.val - 0x80) ' ' else Char.ofNat b.val

/-- The name as the specification words it: the decodings of the name bytes before the
first zero byte, concatenated and trimmed. -/
def mucom88VoiceFormat.nameSpec (v : mucom88VoiceFormat) : String :=
  trimSpace ⟨(v.nameBytes.takeWhile (fun b => b.val ≠ 0)).map decodeByte⟩

/-! ## Category classification -/

/-- The literal of the Go map `categories`, in the order of the source text. A Go map has
no order of its own: `init` may visit the entries in any order. -/
def categories : List (String × String) :=
  [("Bass", "bas チョッ"),
   ("Bells", "bell"),
   ("Brass", "brass brs horn sax"),
   ("Drums & Percs", "cowb perc drum dram drm timbal tom tam hihat hi-hat hi_hat kik kick タムタム dora ホ゛ンコ゛ ツツ゛ミ cow"),
   ("FX", "laser train ufo car mushi sakebi efc tweet"),
   ("Keys", "ep pian clav ap1"),
   ("Lead", "main 7th"),
   ("Organ", "orgn sin"),
   ("Pads", "back down amb"),
   ("Plucked", "guitar gtr koto harp banjo zitar"),
   ("Poly", ""),
   ("Reed and Pipe", "flute oboe pic harm clari pipe"),
   ("Rhythmic", "grock timp xylo vib"),
   ("Strings", "str"),
   ("Synth", "psg synt orc dgt"),
   ("Video Games", ""),
   ("Woodwinds", "kuchi fue")]

/-- Go's `strings.Split(s, " ")`. -/
def splitSpace (s : String) : List String :=
  (s.data.splitOn ' ').map String.mk

/-- The entries that one pass of the first loop of `init` over the map entry
`(cate, s)` appends: none for an empty `s`, else one pair `[word, cate]` per word. -/
def initEntry (e : String × String) : List (String × String) :=
  if e.2 = "" then [] else (splitSpace e.2).map (fun word => (word, e.1))

/-- The first loop of `init`, visiting the map entries in the order `cats`. -/
def initAppend (cats : List (String × String)) : List (String × String) :=
  cats.foldl (fun acc e => acc ++ initEntry e) []

/-- The order `sort.Slice` establishes in `init`: `less(i, j)` is
`len(k[j][0]) < len(k[i][0])`, so afterwards no entry is followed by one with a longer
keyword (`len` counts bytes). -/
def byLength (a b : String × String) : Prop :=
  b.1.utf8ByteSize ≤ a.1.utf8ByteSize

instance byLengthDecidable : DecidableRel byLength :=
  fun a b => inferInstanceAs (Decidable (b.1.utf8ByteSize ≤ a.1.utf8ByteSize))

/-- What `init` guarantees about the global `keywordToCategory`: it holds the entries
appended while visiting the map in some order, rearranged by `sort.Slice` (which is not
stable) so that keyword lengths never increase. -/
def IsInitResult (k2c : List (String × String)) : Prop :=
  ∃ cats, cats.Perm categories ∧ k2c.Perm (initAppend cats) ∧ k2c.Pairwise byLength

/-- One value `init` can leave in `keywordToCategory`: the map visited in source order
and the entries sorted by insertion. -/
def keywordToCategory : List (String × String) :=
  (initAppend categories).insertionSort byLength

/-- Go's `strings.ToLower` on valid UTF-8: every rune mapped by `unicode.ToLower`, which
is the parameter `lower`. -/
def toLower (lower : Char → Char) (s : String) : String :=
  ⟨s.data.map lower⟩

/-- Go's `strings.Contains(s, substr)`; on valid UTF-8 a byte substring is a run of
whole code points. -/
def contains (s substr : String) : Bool :=
  decide (substr.data <:+: s.data)

/-- The loop of `guessCategory`: the category of the first entry whose keyword occurs in
`name`, and the empty string when the loop runs to its end. -/
def guessLoop (name : String) : List (String × String) → String
  | [] => ""
  | k2c :: rest => if contains name k2c.1 then k2c.2 else guessLoop name rest

/-- The Go function `guessCategory`, reading the global `keywordToCategory`. -/
def guessCategory (lower : Char → Char) (keywordToCategory : List (String × String))
    (name : String) : String :=
  let name := toLower lower name
  if name = "" then "Video Games" else guessLoop name keywordToCategory

/-- The Go method `category` (its log line for a missed guess is not modelled). -/
def mucom88VoiceFormat.category (lower : Char → Char)
    (keywordToCategory : List (String × String)) (v : mucom88VoiceFormat) : String :=
  let cate := guessCategory lower keywordToCategory v.name
  if cate ≠ "" then cate else "Lead"

/-! ## Patch names -/

/-- The library functions the converter calls that are not part of the repository. -/
structure Lib where
  /-- The rune mapping `unicode.ToLower` behind `strings.ToLower`. -/
  lower : Char → Char
  /-- The transliteration `kana.KanaToRomaji`. -/
  kanaToRomaji : String → String
  /-- The sanitizer `sanitize.BaseName`. -/
  baseName : String → String
  /-- The path constructor `filepath.Join` on two elements. -/
  join : String → String → String

/-- Zero padding on the left up to the width `w`. -/
def padZero (w : Nat) (s : String) : String :=
  ⟨List.replicate (w - s.data.length) '0' ++ s.data⟩

/-- The verb `%03d` of Go's `fmt`: decimal digits, padded with zeros to width 3, the sign
of a negative number counting towards the width. -/
def fmt03d (n : Int) : String :=
  if 0 ≤ n then padZero 3 (toString n.toNat) else "-" ++ padZero 2 (toString n.natAbs)

/-- The verb `%.1f` of Go's `fmt` applied to `float64(n)` for an `int` value `n` (these
are small integers, which `float64` holds exactly): the integer followed by `.0`. -/
def fmtF1 (n : Int) : String :=
  toString n ++ ".0"

namespace mucom88VoiceFormat

/-- The Go method `sanitizedName`. -/
def sanitizedName (L : Lib) (v : mucom88VoiceFormat) : String :=
  let s := v.name
  let s := combineDakutens s
  let s := L.kanaToRomaji s
  L.baseName s

/-- The Go method `patchName`. -/
def patchName (L : Lib) (v : mucom88VoiceFormat) (pc : Int) : String :=
  let name := v.sanitizedName L
  let name := if name ≠ "" then "-" ++ name else name
  "MUCOM88-" ++ fmt03d pc ++ name

end mucom88VoiceFormat

/-! ## The RYM2612 encoder -/

/-- The Go table `carriers`, indexed `[algorithm][operator]`. -/
def carriers : List (List Bool) :=
  [[false, false, false, true],
   [false, false, false, true],
   [false, false, false, true],
   [false, false, false, true],
   [false, true, false, true],
   [false, true, true, true],
   [false, true, true, true],
   [true, true, true, true]]

/-- The Go table `muls`. -/
def muls : List Int :=
  [0, 1054, 1581, 2635, 3689, 4743, 5797, 6851, 7905, 8959, 10013, 10540, 11594, 12648,
    14229, 15000]

/-- The line `  <PARAM id="OP<i><attr>" value="<value>"/>` of an operator parameter. -/
def opParam (i : Nat) (attr value : String) : String :=
  "  <PARAM id=\"OP" ++ toString i ++ attr ++ "\" value=\"" ++ value ++ "\"/>"

namespace mucom88VoiceFormat

/-- The local `dt` of `toRYM2612` after `if 4 <= dt { dt = 4 - dt }`. -/
def detune (v : mucom88VoiceFormat) (op : Nat) : Int :=
  let dt : Int := v.dt op
  if 4 ≤ dt then 4 - dt else dt

/-- The locals `(vel, tl)` of `toRYM2612` after the carrier test: `tl := 127 - v.tl(op)`,
`vel := 0`, and for a carrier `vel = tl / 2; tl -= vel`. The index into `carriers` is in
range because `al() ≤ 7` and the loop runs `op` over 0..3. -/
def levels (v : mucom88VoiceFormat) (op : Nat) : Int × Int :=
  let tl : Int := 127 - v.tl op
  let vel : Int := 0
  if (carriers.getD v.al []).getD op false then (tl / 2, tl - tl / 2) else (vel, tl)

/-- The slice `buf[op]` that the first loop of `toRYM2612` builds for the operator `op`. -/
def opBuf (v : mucom88VoiceFormat) (op : Nat) : List String :=
  let i := op + 1
  let dt := v.detune op
  let vel := (v.levels op).1
  let tl := (v.levels op).2
  [opParam i "Vel" (fmtF1 vel),
   opParam i "TL" (fmtF1 tl),
   opParam i "SSGEG" "0.0",
   opParam i "RS" (fmtF1 (v.ks op)),
   opParam i "RR" (fmtF1 (v.rr op)),
   opParam i "MW" "0.0",
   opParam i "MUL" (fmtF1 (muls.getD (v.ml op) 0)),
   opParam i "Fixed" "0.0",
   opParam i "DT" (fmtF1 dt),
   opParam i "D2R" (fmtF1 (v.sr op)),
   opParam i "D2L" (fmtF1 (15 - (v.sl op : Int))),
   opParam i "D1R" (fmtF1 (v.dr op)),
   opParam i "AR" (fmtF1 (v.ar op)),
   opParam i "AM" (fmtF1 (v.am op))]

/-- The lines of the document of `toRYM2612`, each of which the Go code ends with a
newline: the header, then for every position `i` of `buf[0]` the entries `buf[op][i]`
for `op` = 3, 2, 1, 0, then the fixed parameters. -/
def toRYM2612Lines (L : Lib) (k2c : List (String × String)) (v : mucom88VoiceFormat)
    (pc : Int) : List String :=
  ["<?xml version=\"1.0\" encoding=\"UTF-8\"?>",
   "",
   "<RYM2612Params patchName=\"" ++ v.patchName L pc ++ "\" category=\"" ++
     v.category L.lower k2c ++ "\" rating=\"3\" type=\"User\">"] ++
  (List.range (v.opBuf 0).length).flatMap
    (fun i => [3, 2, 1, 0].map (fun op => (v.opBuf op).getD i "")) ++
  ["  <PARAM id=\"volume\" value=\"0.4483062326908112\"/>",
   "  <PARAM id=\"Ladder_Effect\" value=\"0.0\"/>",
   "  <PARAM id=\"Output_Filtering\" value=\"0.0\"/>",
   "  <PARAM id=\"Polyphony\" value=\"8.0\"/>",
   "  <PARAM id=\"TimerA\" value=\"0.2000000029802322\"/>",
   "  <PARAM id=\"Spec_Mode\" value=\"2.0\"/>",
   "  <PARAM id=\"Pitchbend_Range\" value=\"2.0\"/>",
   "  <PARAM id=\"Legato_Retrig\" value=\"0.0\"/>",
   "  <PARAM id=\"LFO_Speed\" value=\"2.0\"/>",
   "  <PARAM id=\"LFO_Enable\" value=\"1.0\"/>",
   "  <PARAM id=\"Feedback\" value=\"" ++ fmtF1 v.fb ++ "\"/>",
   "  <PARAM id=\"FMSMW\" value=\"100.0\"/>",
   "  <PARAM id=\"FMS\" value=\"0.0\"/>",
   "  <PARAM id=\"DAC_Prescaler\" value=\"1.0\"/>",
   "  <PARAM id=\"Algorithm\" value=\"" ++ fmtF1 (1 + (v.al : Int)) ++ "\"/>",
   "  <PARAM id=\"AMS\" value=\"0.0\"/>",
   "  <PARAM id=\"masterTune\"/>",
   "</RYM2612Params>"]

/-- The Go method `toRYM2612`. -/
def toRYM2612 (L : Lib) (k2c : List (String × String)) (v : mucom88VoiceFormat)
    (pc : Int) : String :=
  String.join ((v.toRYM2612Lines L k2c pc).map (fun line => line ++ "\n"))

end mucom88VoiceFormat

/-! ## The bank converter -/

/-- An effect of `convert` on the output directory. -/
inductive FileOp where
  /-- A successful `ioutil.WriteFile(path, content, 0644)`. -/
  | write (path content : String)
  /-- A call `os.Remove(path)`. -/
  | remove (path : String)
  deriving DecidableEq

/-- The outcomes of the file operations whose failure `convert` handles. -/
structure Disk where
  /-- The result of `ioutil.ReadFile`. -/
  readFile : String → Except String (List (Fin 256))
  /-- The result of `os.MkdirAll`. -/
  mkdirAll : String → Except String Unit
  /-- The result of `ioutil.WriteFile` for a path and a content. -/
  writeFile : String → String → Except String Unit

/-- The files of the output directory: the content stored under each path, if any. -/
abbrev Files := String → Option String

/-- The effect of one operation on the files (`os.Remove` of a missing file changes
nothing; its error is discarded by `convert`). -/
def applyOp (fs : Files) : FileOp → Files
  | .write path content => fun q => if q = path then some content else fs q
  | .remove path => fun q => if q = path then none else fs q

/-- The effect of a sequence of operations, first to last. -/
def applyOps (fs : Files) (ops : List FileOp) : Files :=
  ops.foldl applyOp fs

/-- The record `v` after `copy(v[:], b[i:i+32])` into the zero value. -/
def recordFrom (b : List (Fin 256)) (i : Nat) : mucom88VoiceFormat :=
  mucom88VoiceFormat.ofList ((b.drop i).take 32)

/-- The local `filename` of `convert`. -/
def fileName (L : Lib) (dst : String) (v : mucom88VoiceFormat) (pc : Int) : String :=
  L.join dst (v.patchName L pc ++ ".rym2612")

/-- The first loop of `convert`, `for i := 0; i+32 <= len(b); i += 32`, from the state
`(i, pc, empty)` on; `ops` are the file operations done so far. The first argument
bounds the number of iterations left (`convert` passes more than the loop can use). -/
def convertLoop (L : Lib) (k2c : List (String × String)) (D : Disk) (dst : String)
    (b : List (Fin 256)) :
    Nat → Nat → Int → List String → List FileOp → Except String (List String × List FileOp)
  | 0, _, _, _, _ => .error "iteration bound exceeded"
  | fuel + 1, i, pc, empty, ops =>
    if i + 32 ≤ b.length then
      let pc := pc + 1
      let v := recordFrom b i
      let filename := fileName L dst v pc
      let xml := v.toRYM2612 L k2c pc
      match D.writeFile filename xml with
      | .error err => .error err
      | .ok _ =>
        let empty := if v.name = "" then empty ++ [filename] else []
        convertLoop L k2c D dst b fuel (i + 32) pc empty (ops ++ [.write filename xml])
    else .ok (empty, ops)

/-- The Go function `convert`: the file operations it performs on success, or the error
it returns. The second loop removes the files collected in `empty`. -/
def convert (L : Lib) (k2c : List (String × String)) (D : Disk) (src dst : String) :
    Except String (List FileOp) :=
  match D.readFile src with
  | .error err => .error err
  | .ok b =>
    match D.mkdirAll dst with
    | .error err => .error err
    | .ok _ =>
      match convertLoop L k2c D dst b (b.length + 1) 0 (-1) [] [] with
      | .error err => .error err
      | .ok (empty, ops) => .ok (ops ++ empty.map FileOp.remove)

/-- The record with the zero-based index `j` of the bank `b`. -/
def recordAt (b : List (Fin 256)) (j : Nat) : mucom88VoiceFormat :=
  recordFrom b (32 * j)

/-- The number `t` is the length of the maximal run of indices below `k` that ends at
`k - 1` and on which `p` holds. -/
def IsTrailingRun (p : Nat → Prop) (k t : Nat) : Prop :=
  t ≤ k ∧ (∀ j, k - t ≤ j → j < k → p j) ∧ (t < k → ¬ p (k - t - 1))

/-- A bank of records with the given name bytes, followed by `extra` stray bytes. -/
def bankOfNames (names : List (List (Fin 256))) (extra : List (Fin 256)) : List (Fin 256) :=
  names.flatMap (fun l => List.replicate 26 0 ++ (l ++ List.replicate (6 - l.length) 0)) ++ extra

/-- Simple stand-ins for the library functions, used to run the model. -/
def sampleLib : Lib :=
  ⟨Char.toLower, id, id, fun dir name => dir ++ "/" ++ name⟩

/-- A disk on which `voice.dat` holds `b` and every operation succeeds. -/
def sampleDisk (b : List (Fin 256)) : Disk :=
  ⟨fun _ => .ok b, fun _ => .ok (), fun _ _ => .ok ()⟩

/-! ## Sample inputs -/

/-- The record whose bytes 1..4 are 0x1F, 0x2E, 0x3D, 0x4C and whose other bytes are zero. -/
def layoutSample : mucom88VoiceFormat :=
  mucom88VoiceFormat.ofList [0, 0x1F, 0x2E, 0x3D, 0x4C]

/-- A record that is zero except for the given name bytes (bytes 26 onwards). -/
def withNameBytes (l : List (Fin 256)) : mucom88VoiceFormat :=
  mucom88VoiceFormat.ofList (List.replicate 26 0 ++ l)

/-- A bank of two records named "A" and "" followed by three stray bytes. -/
def sampleBank : List (Fin 256) :=
  bankOfNames [[0x41], []] [1, 2, 3]

/-! ## Auxiliary notions for the proofs -/

/-- The value of a decimal digit character. -/
def digitVal (c : Char) : Nat :=
  c.toNat - 48

/-- The number a list of decimal digits denotes. -/
def parseDec (l : List Char) : Nat :=
  l.foldl (fun acc c => 10 * acc + digitVal c) 0

/-- The file name `convert` uses for the record with index `j` of the bank `b`. -/
def fileAt (L : Lib) (dst : String) (b : List (Fin 256)) (j : Nat) : String :=
  fileName L dst (recordAt b j) j

/-- The document `convert` writes for the record with index `j` of the bank `b`. -/
def xmlAt (L : Lib) (k2c : List (String × String)) (b : List (Fin 256)) (j : Nat) : String :=
  (recordAt b j).toRYM2612 L k2c j

/-- The write that `convert` performs for the record with index `j` of the bank `b`. -/
def writeOf (L : Lib) (k2c : List (String × String)) (dst : String) (b : List (Fin 256))
    (j : Nat) : FileOp :=
  .write (fileAt L dst b j) (xmlAt L k2c b j)

/-- The value of the variable `empty` of `convert` after `j` iterations of its loop. -/
def emptyAfter (L : Lib) (dst : String) (b : List (Fin 256)) : Nat → List String
  | 0 => []
  | j + 1 =>
    if (recordAt b j).name = "" then emptyAfter L dst b j ++ [fileAt L dst b j] else []

/-- A record with multiple 3 and detune 5 for operator 0 (byte 1 is 0x53) and sustain
level 4 for operator 0 (byte 21 is 0x40); the other bytes are zero. -/
def encoderSample : mucom88VoiceFormat :=
  mucom88VoiceFormat.ofList (0 :: 0x53 :: (List.replicate 19 0 ++ [0x40]))

/-- The attribute names of the per-operator parameters, in the order in which the first
loop of `toRYM2612` appends them to `buf[op]`. -/
def attrNames : List String :=
  ["Vel", "TL", "SSGEG", "RS", "RR", "MW", "MUL", "Fixed", "DT", "D2R", "D2L", "D1R", "AR",
    "AM"]

/-- The values of the per-operator parameters of the operator `op`, in the order of
`attrNames`. -/
def opValues (v : mucom88VoiceFormat) (op : Nat) : List String :=
  [fmtF1 (v.levels op).1, fmtF1 (v.levels op).2, "0.0", fmtF1 (v.ks op), fmtF1 (v.rr op),
    "0.0", fmtF1 (muls.getD (v.ml op) 0), "0.0", fmtF1 (v.detune op), fmtF1 (v.sr op),
    fmtF1 (15 - (v.sl op : Int)), fmtF1 (v.dr op), fmtF1 (v.ar op), fmtF1 (v.am op)]

/-- Whether a line of the document is a per-operator parameter, that is, starts with
`  <PARAM id="OP`. -/
def isOpLine (s : String) : Bool :=
  decide ("  <PARAM id=\"OP".data <+: s.data)

/-- A number in decimal, padded with zeros on the left to at least 3 digits, as the
specification words the patch number of a patch name. -/
def decimalPad3 (n : Nat) : String :=
  let d := toString n
  if d.length < 3 then String.mk (List.replicate (3 - d.length) '0') ++ d else d

/-- Another value `init` can leave in `keywordToCategory`: the map visited in the
reverse of the source order and the entries sorted by insertion. -/
def keywordToCategoryRev : List (String × String) :=
  (initAppend categories.reverse).insertionSort byLength

/-! ## Facts about the record layout -/

theorem get_lt (v : mucom88VoiceFormat) (i : Nat) (h : i < 32) : v.get i h < 256 :=
  (v.byte ⟨i, h⟩).isLt

theorem and_mask (b n : Nat) : b &&& (2 ^ n - 1) = b % 2 ^ n :=
  Nat.and_pow_two_sub_one_eq_mod b n

theorem shr_div (b n : Nat) : b >>> n = b / 2 ^ n :=
  Nat.shiftRight_eq_div_pow b n

/-- Each accessor as arithmetic on the byte it reads (any operator number). -/
theorem accessor_eqs (v : mucom88VoiceFormat) (op : Nat) :
    v.ml op = v.get (1 + op2offset op) (opIdx_lt 1 op (by decide)) % 16 ∧
    v.dt op = (v.get (1 + op2offset op) (opIdx_lt 1 op (by decide)) / 16) % 8 ∧
    v.tl op = v.get (5 + op2offset op) (opIdx_lt 5 op (by decide)) % 128 ∧
    v.ar op = v.get (9 + op2offset op) (opIdx_lt 9 op (by decide)) % 32 ∧
    v.ks op = v.get (9 + op2offset op) (opIdx_lt 9 op (by decide)) / 64 ∧
    v.dr op = v.get (13 + op2offset op) (opIdx_lt 13 op (by decide)) % 32 ∧
    v.am op = v.get (13 + op2offset op) (opIdx_lt 13 op (by decide)) / 128 ∧
    v.sr op = v.get (17 + op2offset op) (opIdx_lt 17 op (by decide)) % 32 ∧
    v.rr op = v.get (21 + op2offset op) (opIdx_lt 21 op (by decide)) % 16 ∧
    v.sl op = v.get (21 + op2offset op) (opIdx_lt 21 op (by decide)) / 16 ∧
    v.al = v.get 25 (by decide) % 8 ∧
    v.fb = (v.get 25 (by decide) / 8) % 8 := by
  refine ⟨?_, ?_, ?_, ?_, ?_, ?_, ?_, ?_, ?_, ?_, ?_, ?_⟩
  · exact and_mask _ 4
  · show (_ >>> 4) &&& (2 ^ 3 - 1) = _
    rw [and_mask, shr_div]; rfl
  · exact and_mask _ 7
  · exact and_mask _ 5
  · exact shr_div _ 6
  · exact and_mask _ 5
  · exact shr_div _ 7
  · exact and_mask _ 5
  · exact and_mask _ 4
  · exact shr_div _ 4
  · exact and_mask _ 3
  · show (_ >>> 3) &&& (2 ^ 3 - 1) = _
    rw [and_mask, shr_div]; rfl

/-- C2: every accessor reads the documented bits of the byte at its base offset
plus the interleaved operator offset `k = op2offset op`, which is 0, 2, 1, 3 for
the operators 0, 1, 2, 3. -/
theorem accessor_layout (v : mucom88VoiceFormat) (op : Nat) (hop : op < 4) :
    op2offset op = [0, 2, 1, 3].getD op 0 ∧
    v.ml op = v.get (1 + op2offset op) (opIdx_lt 1 op (by decide)) % 16 ∧
    v.dt op = (v.get (1 + op2offset op) (opIdx_lt 1 op (by decide)) / 16) % 8 ∧
    v.tl op = v.get (5 + op2offset op) (opIdx_lt 5 op (by decide)) % 128 ∧
    v.ar op = v.get (9 + op2offset op) (opIdx_lt 9 op (by decide)) % 32 ∧
    v.ks op = v.get (9 + op2offset op) (opIdx_lt 9 op (by decide)) / 64 ∧
    v.dr op = v.get (13 + op2offset op) (opIdx_lt 13 op (by decide)) % 32 ∧
    v.am op = v.get (13 + op2offset op) (opIdx_lt 13 op (by decide)) / 128 ∧
    v.sr op = v.get (17 + op2offset op) (opIdx_lt 17 op (by decide)) % 32 ∧
    v.rr op = v.get (21 + op2offset op) (opIdx_lt 21 op (by decide)) % 16 ∧
    v.sl op = v.get (21 + op2offset op) (opIdx_lt 21 op (by decide)) / 16 ∧
    v.al = v.get 25 (by decide) % 8 ∧
    v.fb = (v.get 25 (by decide) / 8) % 8 := by
  refine ⟨?_, accessor_eqs v op⟩
  interval_cases op <;> decide

theorem accessor_layout_witness :
    (1 : Nat) < 4 ∧ op2offset 1 = [0, 2, 1, 3].getD 1 0 ∧
    layoutSample.ml 1 = layoutSample.get (1 + op2offset 1) (opIdx_lt 1 1 (by decide)) % 16 :=
  have h := accessor_layout layoutSample 1 (by decide)
  ⟨by decide, h.1, h.2.1⟩

/-- C3: every decoded field lies in its documented range; this holds for any
operator number, in particular for the operators 0..3. -/
theorem accessor_ranges (v : mucom88VoiceFormat) (op : Nat) :
    v.al ≤ 7 ∧ v.fb ≤ 7 ∧ v.ml op ≤ 15 ∧ v.dt op ≤ 7 ∧ v.tl op ≤ 127 ∧
    v.ar op ≤ 31 ∧ v.dr op ≤ 31 ∧ v.sr op ≤ 31 ∧ v.ks op ≤ 3 ∧ v.am op ≤ 1 ∧
    v.rr op ≤ 15 ∧ v.sl op ≤ 15 := by
  obtain ⟨h1, h2, h3, h4, h5, h6, h7, h8, h9, h10, h11, h12⟩ := accessor_eqs v op
  have b1 := get_lt v (1 + op2offset op) (opIdx_lt 1 op (by decide))
  have b9 := get_lt v (9 + op2offset op) (opIdx_lt 9 op (by decide))
  have b13 := get_lt v (13 + op2offset op) (opIdx_lt 13 op (by decide))
  have b21 := get_lt v (21 + op2offset op) (opIdx_lt 21 op (by decide))
  rw [h1, h2, h3, h4, h5, h6, h7, h8, h9, h10, h11, h12]
  refine ⟨?_, ?_, ?_, ?_, ?_, ?_, ?_, ?_, ?_, ?_, ?_, ?_⟩ <;> omega

/-! ## Facts about diacritic combination -/

theorem combineDakutens_snoc (pre : List Char) (r : Char) :
    (combineDakutens ⟨pre ++ [r]⟩).data = combineStep (combineDakutens ⟨pre⟩).data r := by
  simp [combineDakutens, List.foldl_append]

theorem findPair_eq_none : ∀ (t : List Char) (c : Char), findPair t c = none ↔ c ∉ bases t
  | [], c => by simp [findPair, bases]
  | [a], c => by simp [findPair, bases]
  | a :: b :: rest, c => by
    have ih := findPair_eq_none rest c
    by_cases h : c = a <;> simp [findPair, bases, h, ih]

/-- A rune that is neither a mark nor U+0000 is appended to the output. -/
theorem combineStep_plain (out : List Char) (r : Char)
    (h1 : r ≠ '゛') (h2 : r ≠ '゜') (h0 : 0 < r.toNat) : combineStep out r = out ++ [r] := by
  unfold combineStep
  simp only [h1, h2, ↓reduceIte]
  cases out.getLast? <;> simp [h0]

/-- A mark whose preceding output rune is missing or is no base of its table is appended. -/
theorem combineStep_unmatched (out : List Char) (r : Char) (table : List Char)
    (hr : (r = '゛' ∧ table = dakutens) ∨ (r = '゜' ∧ table = handakutens))
    (hun : ∀ last, out.getLast? = some last → last ∉ bases table) :
    combineStep out r = out ++ [r] := by
  have hpos : 0 < r.toNat := by
    rcases hr with ⟨h, -⟩ | ⟨h, -⟩ <;> subst h <;> decide
  have htab : (if r = '゜' then some handakutens
      else if r = '゛' then some dakutens else none) = some table := by
    rcases hr with ⟨h, ht⟩ | ⟨h, ht⟩ <;> subst h <;> subst ht <;> decide
  unfold combineStep
  simp only [htab]
  cases hl : out.getLast? with
  | none => simp [hpos]
  | some last =>
    have := (findPair_eq_none table last).mpr (hun last hl)
    simp [this, hpos]

/-- A mark following a base of its table replaces the base and is not appended. -/
theorem combineStep_matched (out : List Char) (c c' r : Char) (table : List Char)
    (hr : (r = '゛' ∧ table = dakutens) ∨ (r = '゜' ∧ table = handakutens))
    (hf : findPair table c = some c') :
    combineStep (out ++ [c]) r = out ++ [c'] := by
  have htab : (if r = '゜' then some handakutens
      else if r = '゛' then some dakutens else none) = some table := by
    rcases hr with ⟨h, ht⟩ | ⟨h, ht⟩ <;> subst h <;> subst ht <;> decide
  unfold combineStep
  simp only [htab]
  simp [hf]

theorem pairs_dakutens : ∀ p ∈ pairs dakutens,
    p.1 ≠ '゛' ∧ p.1 ≠ '゜' ∧ 0 < p.1.toNat ∧ findPair dakutens p.1 = some p.2 := by
  decide

theorem pairs_handakutens : ∀ p ∈ pairs handakutens,
    p.1 ≠ '゛' ∧ p.1 ≠ '゜' ∧ 0 < p.1.toNat ∧ findPair handakutens p.1 = some p.2 := by
  decide

theorem combineDakutens_plain (l : List Char)
    (h : ∀ x ∈ l, x ≠ '゛' ∧ x ≠ '゜' ∧ x ≠ Char.ofNat 0) :
    (combineDakutens ⟨l⟩).data = l := by
  induction l using List.reverseRecOn with
  | nil => rfl
  | append_singleton pre r ih =>
    have hr := h r (by simp)
    have hpos : 0 < r.toNat := by
      rcases Nat.eq_zero_or_pos r.toNat with h0 | h0
      · exact absurd (Char.ext (UInt32.ext (by simpa [Char.toNat] using h0))) hr.2.2
      · exact h0
    rw [combineDakutens_snoc, ih (fun x hx => h x (by simp [hx])),
      combineStep_plain _ _ hr.1 hr.2.1 hpos]

/-- A rune other than U+0000 has a positive code point. -/
theorem toNat_pos_of_ne_nul (r : Char) (h : r ≠ Char.ofNat 0) : 0 < r.toNat := by
  rcases Nat.eq_zero_or_pos r.toNat with h0 | h0
  · exact absurd (Char.ext (UInt32.ext (by simpa [Char.toNat] using h0))) h
  · exact h0

/-- A rune that is not a mark is appended unless it is U+0000. -/
theorem combineStep_nonmark (out : List Char) (r : Char) (h1 : r ≠ '゛') (h2 : r ≠ '゜') :
    combineStep out r = if 0 < r.toNat then out ++ [r] else out := by
  unfold combineStep
  simp only [h1, h2, ↓reduceIte]
  cases out.getLast? <;> rfl

/-- A rune is no mark, or it is a mark with its table. -/
theorem mark_cases (r : Char) :
    (r ≠ '゛' ∧ r ≠ '゜') ∨
      ∃ table, (r = '゛' ∧ table = dakutens) ∨ (r = '゜' ∧ table = handakutens) := by
  by_cases h1 : r = '゛'
  · exact Or.inr ⟨dakutens, Or.inl ⟨h1, rfl⟩⟩
  · by_cases h2 : r = '゜'
    · exact Or.inr ⟨handakutens, Or.inr ⟨h2, rfl⟩⟩
    · exact Or.inl ⟨h1, h2⟩

/-- On an empty output every rune but U+0000 is appended. -/
theorem combineStep_nil (y : Char) (h0 : 0 < y.toNat) : combineStep [] y = [y] := by
  rcases mark_cases y with ⟨h1, h2⟩ | ⟨t, ht⟩
  · rw [combineStep_plain [] y h1 h2 h0]
    rfl
  · rw [combineStep_unmatched [] y t ht (by simp)]
    rfl

/-- An iteration touches the last rune of the output only: what stands before a
non-empty end of the output stays, and the output stays non-empty. -/
theorem combineStep_append (P X : List Char) (y : Char) (hX : X ≠ []) :
    combineStep (P ++ X) y = P ++ combineStep X y ∧ combineStep X y ≠ [] := by
  obtain ⟨X', l, rfl⟩ : ∃ X' l, X = X' ++ [l] := by
    rcases List.eq_nil_or_concat X with h | ⟨L, b, h⟩
    · exact absurd h hX
    · exact ⟨L, b, by rw [h, List.concat_eq_append]⟩
  rcases mark_cases y with ⟨h1, h2⟩ | ⟨t, ht⟩
  · rw [combineStep_nonmark _ y h1 h2, combineStep_nonmark _ y h1 h2]
    split <;> simp
  · cases hf : findPair t l with
    | none =>
      have hl : l ∉ bases t := (findPair_eq_none t l).mp hf
      have h1 : ∀ last, (P ++ (X' ++ [l])).getLast? = some last → last ∉ bases t := by
        intro last hlast
        rw [← List.append_assoc, List.getLast?_concat] at hlast
        rw [← Option.some.inj hlast]
        exact hl
      have h2 : ∀ last, (X' ++ [l]).getLast? = some last → last ∉ bases t := by
        intro last hlast
        rw [List.getLast?_concat] at hlast
        rw [← Option.some.inj hlast]
        exact hl
      rw [combineStep_unmatched _ y t ht h1, combineStep_unmatched _ y t ht h2]
      simp
    | some c =>
      have e1 := combineStep_matched (P ++ X') l c y t ht hf
      have e2 := combineStep_matched X' l c y t ht hf
      rw [List.append_assoc] at e1
      rw [e1, e2]
      simp

/-- After a rune that is no base of either table the next iteration acts as on an empty
output. -/
theorem combineStep_after_nonbase (P : List Char) (x y : Char)
    (hx : x ∉ bases dakutens ∧ x ∉ bases handakutens) :
    combineStep (P ++ [x]) y = P ++ x :: combineStep [] y := by
  rcases mark_cases y with ⟨h1, h2⟩ | ⟨t, ht⟩
  · rw [combineStep_nonmark _ y h1 h2, combineStep_nonmark _ y h1 h2]
    split <;> simp
  · have hxt : x ∉ bases t := by
      rcases ht with ⟨-, h⟩ | ⟨-, h⟩ <;> rw [h]
      · exact hx.1
      · exact hx.2
    have h1 : ∀ last, (P ++ [x]).getLast? = some last → last ∉ bases t := by
      intro last hlast
      rw [List.getLast?_concat] at hlast
      rw [← Option.some.inj hlast]
      exact hxt
    rw [combineStep_unmatched _ y t ht h1, combineStep_unmatched [] y t ht (by simp)]
    simp

/-- The loop leaves what stands before a non-empty end of the output as it is. -/
theorem foldl_combineStep_append (l : List Char) : ∀ (P X : List Char), X ≠ [] →
    l.foldl combineStep (P ++ X) = P ++ l.foldl combineStep X := by
  induction l with
  | nil => intro P X _; rfl
  | cons y l ih =>
    intro P X hX
    simp only [List.foldl_cons]
    rw [(combineStep_append P X y hX).1]
    exact ih P _ (combineStep_append P X y hX).2

/-- The loop never changes a rune that is no base of either table, and continues after
it as from an empty output. -/
theorem foldl_combineStep_nonbase (x : Char)
    (hx : x ∉ bases dakutens ∧ x ∉ bases handakutens) (l : List Char) :
    ∀ (P X : List Char), l.foldl combineStep (P ++ x :: X) = P ++ x :: l.foldl combineStep X := by
  induction l with
  | nil => intro P X; rfl
  | cons y l ih =>
    intro P X
    simp only [List.foldl_cons]
    by_cases hX : X = []
    · subst hX
      rw [combineStep_after_nonbase P x y hx]
      exact ih P _
    · have h := (combineStep_append (P ++ [x]) X y hX).1
      rw [List.append_assoc, List.singleton_append] at h
      rw [h, List.append_assoc, List.singleton_append]
      exact ih P _

theorem marks_nonbase :
    ('゛' ∉ bases dakutens ∧ '゛' ∉ bases handakutens) ∧
    ('゜' ∉ bases dakutens ∧ '゜' ∉ bases handakutens) := by
  decide

theorem findPair_mem_pairs : ∀ (t : List Char) (c c' : Char),
    findPair t c = some c' → (c, c') ∈ pairs t
  | [], c, c', h => by simp [findPair] at h
  | [a], c, c', h => by simp [findPair] at h
  | a :: b :: rest, c, c', h => by
    by_cases hca : c = a
    · simp only [findPair, hca, ↓reduceIte, Option.some.injEq] at h
      simp [pairs, hca, h]
    · simp only [findPair, hca, ↓reduceIte] at h
      simp [pairs, findPair_mem_pairs rest c c' h]

theorem counterparts_nonbase :
    (∀ p ∈ pairs dakutens, p.2 ∉ bases dakutens ∧ p.2 ∉ bases handakutens) ∧
    (∀ p ∈ pairs handakutens, p.2 ∉ bases dakutens ∧ p.2 ∉ bases handakutens) := by
  decide

/-- The output for a text is the loop run on its second part from the output for its
first part. -/
theorem combineDakutens_append (pre post : List Char) :
    (combineDakutens ⟨pre ++ post⟩).data =
      post.foldl combineStep (combineDakutens ⟨pre⟩).data := by
  simp [combineDakutens, List.foldl_append]

/-- A mark that finds no base before it stays in the output, whatever follows it. -/
theorem combineDakutens_mark_kept (pre post : List Char) (r : Char) (table : List Char)
    (hr : (r = '゛' ∧ table = dakutens) ∨ (r = '゜' ∧ table = handakutens))
    (hun : ∀ last, (combineDakutens ⟨pre⟩).data.getLast? = some last → last ∉ bases table) :
    (combineDakutens ⟨pre ++ r :: post⟩).data =
      (combineDakutens ⟨pre⟩).data ++ r :: (combineDakutens ⟨post⟩).data := by
  have hnb : r ∉ bases dakutens ∧ r ∉ bases handakutens := by
    rcases hr with ⟨h, -⟩ | ⟨h, -⟩ <;> rw [h]
    · exact marks_nonbase.1
    · exact marks_nonbase.2
  rw [combineDakutens_append, List.foldl_cons, combineStep_unmatched _ r table hr hun]
  have h := foldl_combineStep_nonbase r hnb post (combineDakutens ⟨pre⟩).data []
  rw [h]
  rfl

/-- A mark that finds a base before it replaces the base by its counterpart and does not
enter the output, whatever follows it. -/
theorem combineDakutens_mark_dropped (pre post : List Char) (r : Char) (table : List Char)
    (hr : (r = '゛' ∧ table = dakutens) ∨ (r = '゜' ∧ table = handakutens))
    (last c' : Char) (hlast : (combineDakutens ⟨pre⟩).data.getLast? = some last)
    (hf : findPair table last = some c') :
    (combineDakutens ⟨pre ++ r :: post⟩).data =
      (combineDakutens ⟨pre⟩).data.dropLast ++ c' :: (combineDakutens ⟨post⟩).data := by
  have hnb : c' ∉ bases dakutens ∧ c' ∉ bases handakutens := by
    have hm := findPair_mem_pairs table last c' hf
    rcases hr with ⟨-, h⟩ | ⟨-, h⟩ <;> rw [h] at hm
    · exact counterparts_nonbase.1 (last, c') hm
    · exact counterparts_nonbase.2 (last, c') hm
  have hout : (combineDakutens ⟨pre⟩).data =
      (combineDakutens ⟨pre⟩).data.dropLast ++ [last] := by
    rcases List.eq_nil_or_concat (combineDakutens ⟨pre⟩).data with h | ⟨L, b, h⟩
    · rw [h] at hlast
      exact Option.noConfusion hlast
    · rw [List.concat_eq_append] at h
      rw [h, List.getLast?_concat] at hlast
      rw [h, List.dropLast_concat, Option.some.inj hlast]
  rw [combineDakutens_append, List.foldl_cons]
  have hstep := combineStep_matched (combineDakutens ⟨pre⟩).data.dropLast last c' r table hr hf
  rw [← hout] at hstep
  rw [hstep]
  have h := foldl_combineStep_nonbase c' hnb post (combineDakutens ⟨pre⟩).data.dropLast []
  rw [h]
  rfl

/-- A base followed by the mark of its table becomes its counterpart, in any context. -/
theorem combineDakutens_pair (pre post : List Char) (c c' r : Char) (table : List Char)
    (hr : (r = '゛' ∧ table = dakutens) ∨ (r = '゜' ∧ table = handakutens))
    (hc : (c, c') ∈ pairs table) :
    (combineDakutens ⟨pre ++ c :: r :: post⟩).data =
      (combineDakutens ⟨pre⟩).data ++ c' :: (combineDakutens ⟨post⟩).data := by
  have hp : c ≠ '゛' ∧ c ≠ '゜' ∧ 0 < c.toNat ∧ findPair table c = some c' := by
    rcases hr with ⟨-, ht⟩ | ⟨-, ht⟩ <;> subst ht
    · exact pairs_dakutens (c, c') hc
    · exact pairs_handakutens (c, c') hc
  have hnb : c' ∉ bases dakutens ∧ c' ∉ bases handakutens := by
    rcases hr with ⟨-, h⟩ | ⟨-, h⟩ <;> rw [h] at hc
    · exact counterparts_nonbase.1 (c, c') hc
    · exact counterparts_nonbase.2 (c, c') hc
  rw [combineDakutens_append, List.foldl_cons, List.foldl_cons,
    combineStep_plain _ c hp.1 hp.2.1 hp.2.2.1, combineStep_matched _ c c' r table hr hp.2.2.2]
  have h := foldl_combineStep_nonbase c' hnb post (combineDakutens ⟨pre⟩).data []
  rw [h]
  rfl

/-- A rune that is neither a mark nor U+0000 and is not followed by U+0000 or by a mark
of whose table it is a base is copied, in any context. -/
theorem combineDakutens_copy (pre post : List Char) (x : Char)
    (h1 : x ≠ '゛') (h2 : x ≠ '゜') (h0 : x ≠ Char.ofNat 0)
    (hnul : post.head? ≠ some (Char.ofNat 0))
    (hnext : ∀ table, (post.head? = some '゛' ∧ table = dakutens) ∨
      (post.head? = some '゜' ∧ table = handakutens) → x ∉ bases table) :
    (combineDakutens ⟨pre ++ x :: post⟩).data =
      (combineDakutens ⟨pre⟩).data ++ x :: (combineDakutens ⟨post⟩).data := by
  rw [combineDakutens_append, List.foldl_cons,
    combineStep_plain _ x h1 h2 (toNat_pos_of_ne_nul x h0)]
  cases post with
  | nil => rfl
  | cons y rest =>
    have hy0 : 0 < y.toNat := toNat_pos_of_ne_nul y (fun h => hnul (by rw [h]; rfl))
    have hstep : combineStep ((combineDakutens ⟨pre⟩).data ++ [x]) y =
        ((combineDakutens ⟨pre⟩).data ++ [x]) ++ [y] := by
      rcases mark_cases y with ⟨m1, m2⟩ | ⟨t, ht⟩
      · exact combineStep_plain _ y m1 m2 hy0
      · have hxt : x ∉ bases t := by
          apply hnext t
          rcases ht with ⟨hy, htab⟩ | ⟨hy, htab⟩
          · exact Or.inl ⟨by rw [hy]; rfl, htab⟩
          · exact Or.inr ⟨by rw [hy]; rfl, htab⟩
        apply combineStep_unmatched _ y t ht
        intro last hlast
        rw [List.getLast?_concat] at hlast
        rw [← Option.some.inj hlast]
        exact hxt
    have hout : (combineDakutens ⟨y :: rest⟩).data = rest.foldl combineStep [y] := by
      show rest.foldl combineStep (combineStep [] y) = _
      rw [combineStep_nil y hy0]
    rw [List.foldl_cons, hstep,
      foldl_combineStep_append rest ((combineDakutens ⟨pre⟩).data ++ [x]) [y] (by simp), hout]
    simp

/-! ## Facts about name decoding -/

theorem nameLoop_eq (l : List (Fin 256)) (s : String) :
    nameLoop l s = ⟨s.data ++ (l.takeWhile (fun b => b.val ≠ 0)).map decodeByte⟩ := by
  induction l generalizing s with
  | nil => simp [nameLoop]
  | cons b rest ih =>
    unfold nameLoop
    by_cases h0 : b.val = 0
    · simp [h0, List.takeWhile]
    · by_cases h8 : 0x80 ≤ b.val
      · have hlt : b.val - 0x80 < chars.length := by
          have := b.isLt
          rw [chars_length]; omega
        simp only [h0, h8, ↓reduceIte, ↓reduceDIte, ih, String.data_push]
        simp [List.takeWhile, h0, decodeByte, h8, List.getElem?_eq_getElem hlt]
      · simp [h0, h8, ih, List.takeWhile, decodeByte]

theorem name_eq_nameSpec (v : mucom88VoiceFormat) : v.name = v.nameSpec := by
  simp [mucom88VoiceFormat.name, mucom88VoiceFormat.nameSpec, nameLoop_eq]

theorem trimSpace_eq_empty (s : String) :
    trimSpace s = "" ↔ ∀ c ∈ s.data, isSpace c = true := by
  have key : (s.data.dropWhile isSpace).rdropWhile isSpace = [] ↔
      ∀ c ∈ s.data, isSpace c = true := by
    constructor
    · intro h
      rw [List.rdropWhile_eq_nil_iff] at h
      rw [← List.dropWhile_eq_nil_iff]
      by_contra hne
      have hh := List.head_dropWhile_not isSpace s.data hne
      rw [h _ (List.head_mem hne)] at hh
      exact Bool.noConfusion hh
    · intro h
      rw [List.dropWhile_eq_nil_iff.mpr h]
      simp
  rw [← key]
  constructor
  · intro h
    exact congrArg String.data h
  · intro h
    exact String.ext h

/-- The last rune of the output for a text that ends in a rune other than U+0000 is that
rune or a counterpart, which is no base of either table. -/
theorem combineDakutens_last (before : List Char) (p : Char) (hp0 : p ≠ Char.ofNat 0)
    (last : Char) (hlast : (combineDakutens ⟨before ++ [p]⟩).data.getLast? = some last) :
    last = p ∨ (last ∉ bases dakutens ∧ last ∉ bases handakutens) := by
  rw [combineDakutens_snoc] at hlast
  rcases mark_cases p with ⟨h1, h2⟩ | ⟨t, ht⟩
  · rw [combineStep_plain _ p h1 h2 (toNat_pos_of_ne_nul p hp0), List.getLast?_concat] at hlast
    exact Or.inl (Option.some.inj hlast).symm
  · cases hl : (combineDakutens ⟨before⟩).data.getLast? with
    | none =>
      rw [combineStep_unmatched _ p t ht (by intro l h; rw [hl] at h; cases h),
        List.getLast?_concat] at hlast
      exact Or.inl (Option.some.inj hlast).symm
    | some l =>
      cases hf : findPair t l with
      | none =>
        have hun : ∀ l', (combineDakutens ⟨before⟩).data.getLast? = some l' →
            l' ∉ bases t := by
          intro l' h
          rw [hl] at h
          rw [← Option.some.inj h]
          exact (findPair_eq_none t l).mp hf
        rw [combineStep_unmatched _ p t ht hun, List.getLast?_concat] at hlast
        exact Or.inl (Option.some.inj hlast).symm
      | some c' =>
        have hout : (combineDakutens ⟨before⟩).data =
            (combineDakutens ⟨before⟩).data.dropLast ++ [l] := by
          rcases List.eq_nil_or_concat (combineDakutens ⟨before⟩).data with h | ⟨L, b, h⟩
          · rw [h] at hl
            exact Option.noConfusion hl
          · rw [List.concat_eq_append] at h
            rw [h, List.getLast?_concat] at hl
            rw [h, List.dropLast_concat, Option.some.inj hl]
        have hstep := combineStep_matched (combineDakutens ⟨before⟩).data.dropLast l c' p t ht hf
        rw [← hout] at hstep
        rw [hstep, List.getLast?_concat] at hlast
        rw [← Option.some.inj hlast]
        have hm := findPair_mem_pairs t l c' hf
        rcases ht with ⟨-, h⟩ | ⟨-, h⟩ <;> rw [h] at hm
        · exact Or.inr (counterparts_nonbase.1 (l, c') hm)
        · exact Or.inr (counterparts_nonbase.2 (l, c') hm)

set_option maxRecDepth 100000 in
theorem decodeByte_ne_nul : ∀ b : Fin 256, b.val ≠ 0 → decodeByte b ≠ Char.ofNat 0 := by
  decide

/-- A decoded name holds no U+0000: the loop of `name` stops at a zero byte and `chars`
has no such entry. -/
theorem name_no_nul (v : mucom88VoiceFormat) : ∀ x ∈ v.name.data, x ≠ Char.ofNat 0 := by
  intro x hx
  rw [name_eq_nameSpec] at hx
  have h1 : x ∈ ((v.nameBytes.takeWhile (fun b => b.val ≠ 0)).map decodeByte).dropWhile
      isSpace := ( List.rdropWhile_prefix isSpace _).subset hx
  have h2 : x ∈ (v.nameBytes.takeWhile (fun b => b.val ≠ 0)).map decodeByte :=
    (List.dropWhile_suffix isSpace).subset h1
  obtain ⟨b, hb, rfl⟩ := List.mem_map.mp h2
  exact decodeByte_ne_nul b (by simpa using List.mem_takeWhile_imp hb)

/-! ## Claims about diacritic combination -/

/-- C4 as stated fails: the voiced mark alone is not dropped, it is returned as it is. -/
theorem combineDakutens_lone_mark_kept :
    combineDakutens "゛" = "゛" ∧ combineDakutens "゛" ≠ "" := by
  decide

/-- C4 (amended): at any place of a string, a mark is kept as a literal character,
whatever follows it, when the output so far is empty or ends in a character that is no
base entry of the table of that mark; this is so when the mark stands first and when the
character before it is not U+0000 and no base entry of that table. A mark is dropped
only when it combines: then the last output character is replaced by its counterpart. -/
theorem combineDakutens_unmatched_mark (pre post : List Char) (r : Char) (table : List Char)
    (hr : (r = '゛' ∧ table = dakutens) ∨ (r = '゜' ∧ table = handakutens)) :
    ((∀ last, (combineDakutens ⟨pre⟩).data.getLast? = some last → last ∉ bases table) →
      (combineDakutens ⟨pre ++ r :: post⟩).data =
        (combineDakutens ⟨pre⟩).data ++ r :: (combineDakutens ⟨post⟩).data ∧
      (combineDakutens ⟨pre ++ [r]⟩).data = (combineDakutens ⟨pre⟩).data ++ [r]) ∧
    (pre = [] → (combineDakutens ⟨r :: post⟩).data = r :: (combineDakutens ⟨post⟩).data) ∧
    (∀ (before : List Char) (p : Char), pre = before ++ [p] → p ≠ Char.ofNat 0 →
      p ∉ bases table →
      (combineDakutens ⟨pre ++ r :: post⟩).data =
        (combineDakutens ⟨pre⟩).data ++ r :: (combineDakutens ⟨post⟩).data) ∧
    (∀ last c', (combineDakutens ⟨pre⟩).data.getLast? = some last →
      findPair table last = some c' →
      (combineDakutens ⟨pre ++ r :: post⟩).data =
        (combineDakutens ⟨pre⟩).data.dropLast ++ c' :: (combineDakutens ⟨post⟩).data) ∧
    combineDakutens "゛a" = "゛a" ∧ combineDakutens "a゜b" = "a゜b" := by
  refine ⟨fun hun => ⟨combineDakutens_mark_kept pre post r table hr hun, ?_⟩, ?_, ?_,
    fun last c' hlast hf => combineDakutens_mark_dropped pre post r table hr last c' hlast hf,
    by decide, by decide⟩
  · rw [combineDakutens_snoc]
    exact combineStep_unmatched _ r table hr hun
  · intro hpre
    have h := combineDakutens_mark_kept [] post r table hr (by intro last hl; cases hl)
    rw [hpre] at *
    exact h
  · intro before p hpre hp0 hpb
    apply combineDakutens_mark_kept pre post r table hr
    intro last hlast
    rw [hpre] at hlast
    rcases combineDakutens_last before p hp0 last hlast with h | h
    · rw [h]; exact hpb
    · rcases hr with ⟨-, ht⟩ | ⟨-, ht⟩ <;> rw [ht]
      · exact h.1
      · exact h.2

theorem combineDakutens_unmatched_mark_witness :
    (combineDakutens ⟨[] ++ '゛' :: ['a']⟩).data = ['゛', 'a'] ∧
    (combineDakutens ⟨['a'] ++ '゜' :: ['b', 'ハ']⟩).data = ['a', '゜', 'b', 'ハ'] :=
  ⟨((combineDakutens_unmatched_mark [] ['a'] '゛' dakutens (Or.inl ⟨rfl, rfl⟩)).1
      (by decide)).1.trans (by decide),
    ((combineDakutens_unmatched_mark ['a'] ['b', 'ハ'] '゜' handakutens (Or.inr ⟨rfl, rfl⟩)).2.2.1
      [] 'a' rfl (by decide) (by decide)).trans (by decide)⟩

/-- The character U+0000 is not a mark and is not copied; no decoded name holds it
(`name_no_nul`), so `combineDakutens` never receives it. -/
theorem combineDakutens_drops_nul :
    (∀ x ∈ "a\x00b".data, x ≠ '゛' ∧ x ≠ '゜') ∧
    combineDakutens "a\x00b" = "ab" ∧ combineDakutens "a\x00b" ≠ "a\x00b" := by
  decide

/-- C5: a base kana of the voiced (semi-voiced) table followed by the voiced
(semi-voiced) mark is replaced by its counterpart and the mark is dropped, in any
context; "か゛" becomes "が"; and every other character that is not a mark is copied
unchanged in its place. This holds for the strings `combineDakutens` receives, which
are the decoded names and hold no U+0000. -/
theorem combineDakutens_combines (pre post : List Char) (c c' r : Char) (table : List Char)
    (hr : (r = '゛' ∧ table = dakutens) ∨ (r = '゜' ∧ table = handakutens))
    (hc : (c, c') ∈ pairs table) :
    (combineDakutens ⟨pre ++ c :: r :: post⟩).data =
      (combineDakutens ⟨pre⟩).data ++ c' :: (combineDakutens ⟨post⟩).data ∧
    (combineDakutens ⟨[c, r]⟩).data = [c'] ∧
    (combineDakutens ⟨pre ++ [c, r]⟩).data = (combineDakutens ⟨pre⟩).data ++ [c'] ∧
    combineDakutens "か゛" = "が" ∧
    (∀ (pre post : List Char) (x : Char), x ≠ '゛' → x ≠ '゜' → x ≠ Char.ofNat 0 →
      post.head? ≠ some (Char.ofNat 0) →
      (∀ table, (post.head? = some '゛' ∧ table = dakutens) ∨
        (post.head? = some '゜' ∧ table = handakutens) → x ∉ bases table) →
      (combineDakutens ⟨pre ++ x :: post⟩).data =
        (combineDakutens ⟨pre⟩).data ++ x :: (combineDakutens ⟨post⟩).data) ∧
    (∀ s : String, (∀ x ∈ s.data, x ≠ '゛' ∧ x ≠ '゜' ∧ x ≠ Char.ofNat 0) →
      combineDakutens s = s) ∧
    (∀ v : mucom88VoiceFormat, ∀ x ∈ v.name.data, x ≠ Char.ofNat 0) ∧
    (∀ (v : mucom88VoiceFormat) (pre post : List Char) (x : Char),
      v.name.data = pre ++ x :: post → x ≠ '゛' → x ≠ '゜' →
      (∀ table, (post.head? = some '゛' ∧ table = dakutens) ∨
        (post.head? = some '゜' ∧ table = handakutens) → x ∉ bases table) →
      (combineDakutens v.name).data =
        (combineDakutens ⟨pre⟩).data ++ x :: (combineDakutens ⟨post⟩).data) := by
  have hpair := combineDakutens_pair pre post c c' r table hr hc
  refine ⟨hpair, ?_, ?_, by decide,
    fun pre post x h1 h2 h0 hnul hnext => combineDakutens_copy pre post x h1 h2 h0 hnul hnext,
    fun s hs => String.ext (combineDakutens_plain s.data hs), name_no_nul, ?_⟩
  · exact combineDakutens_pair [] [] c c' r table hr hc
  · exact combineDakutens_pair pre [] c c' r table hr hc
  · intro v pre post x hname h1 h2 hnext
    have hx0 : x ≠ Char.ofNat 0 := name_no_nul v x (by rw [hname]; simp)
    have hnul : post.head? ≠ some (Char.ofNat 0) := by
      intro hh
      cases post with
      | nil => cases hh
      | cons y rest =>
        have hy : y = Char.ofNat 0 := Option.some.inj hh
        exact name_no_nul v y (by rw [hname]; simp) hy
    have hs : v.name = ⟨pre ++ x :: post⟩ := String.ext hname
    rw [hs]
    exact combineDakutens_copy pre post x h1 h2 hx0 hnul hnext

set_option maxRecDepth 100000 in
theorem combineDakutens_combines_witness :
    (combineDakutens ⟨['x'] ++ 'ハ' :: '゜' :: ['y', '゛']⟩).data = ['x', 'パ', 'y', '゛'] ∧
    (withNameBytes [0x41, 0xB6, 0xDE, 0x42]).name = "Aカ゛B" ∧
    combineDakutens (withNameBytes [0x41, 0xB6, 0xDE, 0x42]).name = "AガB" :=
  have h := combineDakutens_combines ['x'] ['y', '゛'] 'ハ' 'パ' '゜' handakutens
    (Or.inr ⟨rfl, rfl⟩) (by decide)
  ⟨h.1.trans (by decide), by decide, by decide⟩

/-! ## Claims about name decoding -/

set_option maxRecDepth 4000 in
/-- C6 as stated fails: with name bytes 0x00, 0x41 the name is empty although the second
name byte is neither zero nor white space. -/
theorem name_empty_with_letter_after_zero :
    (withNameBytes [0, 0x41]).name = "" ∧
    ¬ ∀ b ∈ (withNameBytes [0, 0x41]).nameBytes, b.val = 0 ∨ isSpace (decodeByte b) = true := by
  decide

/-- C6 (amended): the decoded name is empty if and only if every name byte before the
first zero byte decodes to white space; so it is empty when each of the six name bytes
is zero or decodes to white space. -/
theorem name_empty_iff (v : mucom88VoiceFormat) :
    (v.name = "" ↔
      ∀ b ∈ v.nameBytes.takeWhile (fun b => b.val ≠ 0), isSpace (decodeByte b) = true) ∧
    ((∀ b ∈ v.nameBytes, b.val = 0 ∨ isSpace (decodeByte b) = true) → v.name = "") := by
  have hiff : v.name = "" ↔
      ∀ b ∈ v.nameBytes.takeWhile (fun b => b.val ≠ 0), isSpace (decodeByte b) = true := by
    rw [name_eq_nameSpec, mucom88VoiceFormat.nameSpec, trimSpace_eq_empty]
    simp
  refine ⟨hiff, fun h => hiff.mpr (fun b hb => ?_)⟩
  have hne : b.val ≠ 0 := by simpa using List.mem_takeWhile_imp hb
  rcases h b (List.takeWhile_subset _ hb) with h0 | hs
  · exact absurd h0 hne
  · exact hs

set_option maxRecDepth 4000 in
theorem name_empty_iff_witness :
    (withNameBytes [0x20, 0xA0, 0, 0x41]).name = "" :=
  (name_empty_iff (withNameBytes [0x20, 0xA0, 0, 0x41])).1.mpr (by decide)

/-- C7: the name is the trimmed concatenation of the decodings of the name bytes before
the first zero byte, so records that agree on those bytes have the same name. -/
theorem name_refines_spec (v : mucom88VoiceFormat) :
    v.name = v.nameSpec ∧
    ∀ w : mucom88VoiceFormat,
      v.nameBytes.takeWhile (fun b => b.val ≠ 0) = w.nameBytes.takeWhile (fun b => b.val ≠ 0) →
      v.name = w.name := by
  refine ⟨name_eq_nameSpec v, fun w h => ?_⟩
  rw [name_eq_nameSpec, name_eq_nameSpec, mucom88VoiceFormat.nameSpec,
    mucom88VoiceFormat.nameSpec, h]

theorem name_refines_spec_witness :
    (withNameBytes [0x41, 0xB6, 0, 0x42]).name = "Aカ" ∧
    (withNameBytes [0x41, 0xB6, 0, 0x42]).name = (withNameBytes [0x41, 0xB6, 0, 0x99, 7]).name :=
  ⟨by decide,
    (name_refines_spec (withNameBytes [0x41, 0xB6, 0, 0x42])).2
      (withNameBytes [0x41, 0xB6, 0, 0x99, 7]) (by decide)⟩

/-! ## Facts about classification -/

theorem initAppend_eq_flatMap (cats : List (String × String)) :
    initAppend cats = cats.flatMap initEntry := by
  have h : ∀ acc : List (String × String),
      cats.foldl (fun acc e => acc ++ initEntry e) acc = acc ++ cats.flatMap initEntry := by
    induction cats with
    | nil => simp
    | cons e rest ih => intro acc; simp [ih]
  simpa [initAppend] using h []

/-- Whatever the order of the map traversal and of the sort, `keywordToCategory` has the
same entries as the table flattened in source order. -/
theorem IsInitResult.mem_iff {k2c : List (String × String)} (h : IsInitResult k2c)
    (e : String × String) : e ∈ k2c ↔ e ∈ initAppend categories := by
  obtain ⟨cats, hc, hp, -⟩ := h
  rw [hp.mem_iff, initAppend_eq_flatMap, initAppend_eq_flatMap]
  exact (List.Perm.flatMap_right initEntry hc).mem_iff

theorem keywordToCategory_isInitResult : IsInitResult keywordToCategory := by
  refine ⟨categories, List.Perm.refl _, List.perm_insertionSort _ _, ?_⟩
  have htot : IsTotal (String × String) byLength := ⟨fun a b => Nat.le_total _ _⟩
  have htr : IsTrans (String × String) byLength := ⟨fun a b c hab hbc => Nat.le_trans hbc hab⟩
  exact List.sorted_insertionSort byLength _

set_option maxRecDepth 100000 in
theorem table_nonempty : ∀ e ∈ initAppend categories, e.1 ≠ "" ∧ e.2 ≠ "" := by
  decide

theorem contains_empty (kw : String) (h : kw ≠ "") : contains "" kw = false := by
  simp only [contains, decide_eq_false_iff_not]
  intro hin
  exact h (String.ext (List.eq_nil_of_infix_nil hin))

theorem toLower_eq_empty (lower : Char → Char) (s : String) :
    toLower lower s = "" ↔ s = "" := by
  constructor
  · intro h
    have := congrArg String.data h
    exact String.ext (by simpa [toLower] using this)
  · rintro rfl
    rfl

/-- The loop returns the category of the first matching entry, and in a list whose
keyword lengths never increase no matching keyword is longer than that entry's. -/
theorem guessLoop_first (name : String) (l : List (String × String))
    (hs : l.Pairwise byLength) (hocc : ∃ e ∈ l, contains name e.1 = true) :
    ∃ e ∈ l, contains name e.1 = true ∧ guessLoop name l = e.2 ∧
      ∀ e' ∈ l, contains name e'.1 = true → e'.1.utf8ByteSize ≤ e.1.utf8ByteSize := by
  induction l with
  | nil => simp at hocc
  | cons a rest ih =>
    rw [List.pairwise_cons] at hs
    by_cases ha : contains name a.1 = true
    · refine ⟨a, by simp, ha, by simp [guessLoop, ha], ?_⟩
      intro e' he' _
      rcases List.mem_cons.mp he' with rfl | hr
      · exact Nat.le_refl _
      · exact hs.1 e' hr
    · have hocc' : ∃ e ∈ rest, contains name e.1 = true := by
        obtain ⟨e, he, hc⟩ := hocc
        rcases List.mem_cons.mp he with rfl | hr
        · exact absurd hc ha
        · exact ⟨e, hr, hc⟩
      obtain ⟨e, he, hc, hg, hmax⟩ := ih hs.2 hocc'
      refine ⟨e, List.mem_cons_of_mem _ he, hc, by simp [guessLoop, ha, hg], ?_⟩
      intro e' he' hc'
      rcases List.mem_cons.mp he' with rfl | hr
      · exact absurd hc' ha
      · exact hmax e' hr hc'

theorem guessLoop_none (name : String) (l : List (String × String))
    (h : ∀ e ∈ l, contains name e.1 = false) : guessLoop name l = "" := by
  induction l with
  | nil => rfl
  | cons a rest ih =>
    have ha := h a (by simp)
    simp [guessLoop, ha, ih (fun e he => h e (List.mem_cons_of_mem _ he))]

/-- With a keyword of the table occurring in the lowercased name, `guessCategory` returns
the category of an occurring keyword that no occurring keyword exceeds in length. -/
theorem guessCategory_match (lower : Char → Char) (k2c : List (String × String))
    (hinit : IsInitResult k2c) (name : String)
    (hocc : ∃ e ∈ initAppend categories, contains (toLower lower name) e.1 = true) :
    ∃ e ∈ initAppend categories, contains (toLower lower name) e.1 = true ∧
      guessCategory lower k2c name = e.2 ∧
      ∀ e' ∈ initAppend categories, contains (toLower lower name) e'.1 = true →
        e'.1.utf8ByteSize ≤ e.1.utf8ByteSize := by
  have hne : toLower lower name ≠ "" := by
    intro h0
    obtain ⟨e, he, hc⟩ := hocc
    rw [h0, contains_empty e.1 (table_nonempty e he).1] at hc
    exact Bool.noConfusion hc
  have hocc' : ∃ e ∈ k2c, contains (toLower lower name) e.1 = true := by
    obtain ⟨e, he, hc⟩ := hocc
    exact ⟨e, (hinit.mem_iff e).mpr he, hc⟩
  obtain ⟨cats, -, -, hs⟩ := id hinit
  obtain ⟨e, he, hc, hg, hmax⟩ := guessLoop_first (toLower lower name) k2c hs hocc'
  refine ⟨e, (hinit.mem_iff e).mp he, hc, ?_, fun e' he' hc' =>
    hmax e' ((hinit.mem_iff e').mpr he') hc'⟩
  simp only [guessCategory, hne, ↓reduceIte, hg]

theorem name_empty_of_zero (v : mucom88VoiceFormat) (h : ∀ b ∈ v.nameBytes, b.val = 0) :
    v.name = "" := by
  have h0 : v.nameBytes.takeWhile (fun b => b.val ≠ 0) = [] := by
    have hb := h (v.byte 26) (by simp [mucom88VoiceFormat.nameBytes])
    simp [mucom88VoiceFormat.nameBytes, List.takeWhile, hb]
  rw [name_eq_nameSpec, mucom88VoiceFormat.nameSpec, h0]
  rfl

/-! ## Claims about classification -/

/-- C8: when a keyword of the category table occurs in the lowercased name,
`guessCategory` returns the category of an occurring keyword of maximal byte length: no
occurring keyword is strictly longer than the one that decided the result. -/
theorem guessCategory_longest_match (lower : Char → Char) (k2c : List (String × String))
    (hinit : IsInitResult k2c) (name : String)
    (hocc : ∃ e ∈ initAppend categories, contains (toLower lower name) e.1 = true) :
    ∃ e ∈ initAppend categories, contains (toLower lower name) e.1 = true ∧
      guessCategory lower k2c name = e.2 ∧
      ∀ e' ∈ initAppend categories, contains (toLower lower name) e'.1 = true →
        e'.1.utf8ByteSize ≤ e.1.utf8ByteSize :=
  guessCategory_match lower k2c hinit name hocc

set_option maxRecDepth 100000 in
theorem guessCategory_longest_match_witness :
    guessCategory Char.toLower keywordToCategory "HiHat Drum" = "Drums & Percs" ∧
    ∃ e ∈ initAppend categories, contains (toLower Char.toLower "HiHat Drum") e.1 = true ∧
      guessCategory Char.toLower keywordToCategory "HiHat Drum" = e.2 ∧
      ∀ e' ∈ initAppend categories, contains (toLower Char.toLower "HiHat Drum") e'.1 = true →
        e'.1.utf8ByteSize ≤ e.1.utf8ByteSize :=
  ⟨by decide,
    guessCategory_longest_match Char.toLower keywordToCategory keywordToCategory_isInitResult
      "HiHat Drum" ⟨("drum", "Drums & Percs"), by decide, by decide⟩⟩

/-- C9: `category` always returns a non-empty string: "Video Games" for an empty decoded
name (so for six zero name bytes), the category of an occurring keyword when one occurs
in the lowercased name, and "Lead", which differs from "Video Games", for a non-empty
name in which no keyword occurs. -/
theorem category_total (lower : Char → Char) (k2c : List (String × String))
    (hinit : IsInitResult k2c) (v : mucom88VoiceFormat) :
    v.category lower k2c ≠ "" ∧
    (v.name = "" → v.category lower k2c = "Video Games") ∧
    ((∀ b ∈ v.nameBytes, b.val = 0) → v.category lower k2c = "Video Games") ∧
    ((∃ e ∈ initAppend categories, contains (toLower lower v.name) e.1 = true) →
      ∃ e ∈ initAppend categories, contains (toLower lower v.name) e.1 = true ∧
        v.category lower k2c = e.2) ∧
    (v.name ≠ "" →
      (∀ e ∈ initAppend categories, contains (toLower lower v.name) e.1 = false) →
      v.category lower k2c = "Lead") ∧
    ("Lead" : String) ≠ "Video Games" := by
  have hempty : v.name = "" → v.category lower k2c = "Video Games" := by
    intro h
    have hl : toLower lower "" = "" := rfl
    simp [mucom88VoiceFormat.category, guessCategory, h, hl]
  have hmatch : (∃ e ∈ initAppend categories, contains (toLower lower v.name) e.1 = true) →
      ∃ e ∈ initAppend categories, contains (toLower lower v.name) e.1 = true ∧
        v.category lower k2c = e.2 := by
    intro hocc
    obtain ⟨e, he, hc, hg, -⟩ := guessCategory_match lower k2c hinit v.name hocc
    refine ⟨e, he, hc, ?_⟩
    simp only [mucom88VoiceFormat.category, hg, ne_eq, (table_nonempty e he).2,
      not_false_eq_true, ↓reduceIte]
  have hmiss : v.name ≠ "" →
      (∀ e ∈ initAppend categories, contains (toLower lower v.name) e.1 = false) →
      v.category lower k2c = "Lead" := by
    intro hne hno
    have hl : toLower lower v.name ≠ "" := fun h => hne ((toLower_eq_empty lower _).mp h)
    have hg : guessLoop (toLower lower v.name) k2c = "" :=
      guessLoop_none _ _ (fun e he => hno e ((hinit.mem_iff e).mp he))
    simp [mucom88VoiceFormat.category, guessCategory, hl, hg]
  refine ⟨?_, hempty, fun h => hempty (name_empty_of_zero v h), hmatch, hmiss, by decide⟩
  by_cases hn : v.name = ""
  · rw [hempty hn]; decide
  · by_cases hocc : ∃ e ∈ initAppend categories, contains (toLower lower v.name) e.1 = true
    · obtain ⟨e, he, -, hg⟩ := hmatch hocc
      rw [hg]
      exact (table_nonempty e he).2
    · rw [hmiss hn (fun e he => by
        cases hc : contains (toLower lower v.name) e.1
        · rfl
        · exact absurd ⟨e, he, hc⟩ hocc)]
      decide

set_option maxRecDepth 100000 in
theorem category_total_witness :
    (withNameBytes [0x53, 0x41, 0x57]).name = "SAW" ∧
    (withNameBytes [0x53, 0x41, 0x57]).category Char.toLower keywordToCategory = "Lead" ∧
    (withNameBytes []).category Char.toLower keywordToCategory = "Video Games" :=
  ⟨by decide,
    (category_total Char.toLower keywordToCategory keywordToCategory_isInitResult
      (withNameBytes [0x53, 0x41, 0x57])).2.2.2.2.1 (by decide) (by decide),
    (category_total Char.toLower keywordToCategory keywordToCategory_isInitResult
      (withNameBytes [])).2.1 (by decide)⟩

/-! ## Facts about the encoder -/

/-- Every entry of every `buf[op]` is a line of the document. -/
theorem opBuf_mem_lines (L : Lib) (k2c : List (String × String)) (v : mucom88VoiceFormat)
    (pc : Int) (op i : Nat) (hop : op < 4) (hi : i < 14) :
    (v.opBuf op).getD i "" ∈ v.toRYM2612Lines L k2c pc := by
  unfold mucom88VoiceFormat.toRYM2612Lines
  apply List.mem_append_left
  apply List.mem_append_right
  rw [List.mem_flatMap]
  refine ⟨i, List.mem_range.mpr hi, List.mem_map.mpr ⟨op, ?_, rfl⟩⟩
  interval_cases op <;> simp

/-! ## Claims about the level split -/

/-- C10: with `L = 127 - tl(op)`, the first two lines of `buf[op]`, which are lines of
the document, carry `OPnVel` and `OPnTL`; for a carrier these are `L / 2` and
`L - L / 2`, so they add up to `L` and differ by 0 or 1 (63 and 64 for total level 0);
otherwise they are 0 and `L`. -/
theorem levels_split (v : mucom88VoiceFormat) (op : Nat) (hop : op < 4) :
    (v.opBuf op).get? 0 = some (opParam (op + 1) "Vel" (fmtF1 (v.levels op).1)) ∧
    (v.opBuf op).get? 1 = some (opParam (op + 1) "TL" (fmtF1 (v.levels op).2)) ∧
    (∀ (L : Lib) (k2c : List (String × String)) (pc : Int),
      opParam (op + 1) "Vel" (fmtF1 (v.levels op).1) ∈ v.toRYM2612Lines L k2c pc ∧
      opParam (op + 1) "TL" (fmtF1 (v.levels op).2) ∈ v.toRYM2612Lines L k2c pc) ∧
    ((carriers.getD v.al []).getD op false = true →
      (v.levels op).1 = (127 - (v.tl op : Int)) / 2 ∧
      (v.levels op).2 = (127 - (v.tl op : Int)) - (127 - (v.tl op : Int)) / 2 ∧
      (v.levels op).1 + (v.levels op).2 = 127 - (v.tl op : Int) ∧
      ((v.levels op).2 - (v.levels op).1 = 0 ∨ (v.levels op).2 - (v.levels op).1 = 1) ∧
      (v.tl op = 0 → (v.levels op).1 = 63 ∧ (v.levels op).2 = 64)) ∧
    ((carriers.getD v.al []).getD op false = false →
      (v.levels op).1 = 0 ∧ (v.levels op).2 = 127 - (v.tl op : Int)) := by
  have htl : v.tl op ≤ 127 := by
    have h := (accessor_eqs v op).2.2.1
    omega
  refine ⟨rfl, rfl, ?_, ?_, ?_⟩
  · intro L k2c pc
    exact ⟨opBuf_mem_lines L k2c v pc op 0 hop (by decide),
      opBuf_mem_lines L k2c v pc op 1 hop (by decide)⟩
  · intro hc
    have hl : v.levels op =
        ((127 - (v.tl op : Int)) / 2, (127 - (v.tl op : Int)) - (127 - (v.tl op : Int)) / 2) := by
      unfold mucom88VoiceFormat.levels
      rw [if_pos hc]
    rw [hl]
    refine ⟨rfl, rfl, by omega, by omega, fun h0 => ?_⟩
    rw [h0]
    decide
  · intro hc
    have hl : v.levels op = (0, 127 - (v.tl op : Int)) := by
      unfold mucom88VoiceFormat.levels
      rw [if_neg (by rw [hc]; decide)]
    rw [hl]
    exact ⟨rfl, rfl⟩

theorem levels_split_witness :
    (layoutSample.levels 3).1 = 63 ∧ (layoutSample.levels 3).2 = 64 ∧
    (layoutSample.opBuf 3).get? 0 = some "  <PARAM id=\"OP4Vel\" value=\"63.0\"/>" :=
  have h := levels_split layoutSample 3 (by decide)
  ⟨(h.2.2.2.1 (by decide)).2.2.2.2 (by decide) |>.1,
   (h.2.2.2.1 (by decide)).2.2.2.2 (by decide) |>.2,
   h.1.trans (by decide)⟩

/-! ## Facts about patch names -/

theorem digitChar_spec (k : Nat) (hk : k < 10) :
    digitVal (Nat.digitChar k) = k ∧ (Nat.digitChar k).isDigit = true := by
  interval_cases k <;> decide

theorem parseDec_snoc (l : List Char) (c : Char) :
    parseDec (l ++ [c]) = 10 * parseDec l + digitVal c := by
  simp [parseDec, List.foldl_append]

theorem parseDec_zeros (k : Nat) (l : List Char) :
    parseDec (List.replicate k '0' ++ l) = parseDec l := by
  have h0 : ∀ k : Nat, (List.replicate k '0').foldl (fun acc c => 10 * acc + digitVal c) 0 = 0 := by
    intro k
    induction k with
    | zero => rfl
    | succ k ih => simpa [List.replicate_succ, digitVal] using ih
  simp [parseDec, List.foldl_append, h0]

/-- The digits core Lean prints for `n` denote `n` and are decimal digits. -/
theorem toDigitsCore_spec (fuel : Nat) : ∀ (n : Nat) (ds : List Char), n < fuel →
    ∃ l, Nat.toDigitsCore 10 fuel n ds = l ++ ds ∧ parseDec l = n ∧
      ∀ c ∈ l, c.isDigit = true := by
  induction fuel with
  | zero => intro n ds h; omega
  | succ fuel ih =>
    intro n ds hn
    have hd := digitChar_spec (n % 10) (Nat.mod_lt _ (by decide))
    by_cases h0 : n / 10 = 0
    · refine ⟨[Nat.digitChar (n % 10)], by simp [Nat.toDigitsCore, h0], ?_, ?_⟩
      · have := parseDec_snoc [] (Nat.digitChar (n % 10))
        simp only [List.nil_append] at this
        rw [this, hd.1]
        show 10 * 0 + n % 10 = n
        omega
      · intro c hc
        rw [List.mem_singleton.mp hc]
        exact hd.2
    · obtain ⟨l, hl, hp, hdig⟩ := ih (n / 10) (Nat.digitChar (n % 10) :: ds) (by omega)
      refine ⟨l ++ [Nat.digitChar (n % 10)], by simp [Nat.toDigitsCore, h0, hl], ?_, ?_⟩
      · rw [parseDec_snoc, hp, hd.1]
        omega
      · intro c hc
        rcases List.mem_append.mp hc with h | h
        · exact hdig c h
        · rw [List.mem_singleton.mp h]
          exact hd.2

/-- The text of `%03d` for a non-negative number consists of digits that denote it. -/
theorem fmt03d_spec (p : Int) (hp : 0 ≤ p) :
    parseDec (fmt03d p).data = p.toNat ∧ ∀ c ∈ (fmt03d p).data, c.isDigit = true := by
  obtain ⟨l, hl, hpl, hdig⟩ := toDigitsCore_spec (p.toNat + 1) p.toNat [] (by omega)
  have hrepr : (toString p.toNat).data = l := by
    show Nat.toDigitsCore 10 (p.toNat + 1) p.toNat [] = l
    rw [hl, List.append_nil]
  have hdata : (fmt03d p).data = List.replicate (3 - l.length) '0' ++ l := by
    simp only [fmt03d, hp, ↓reduceIte, padZero, hrepr]
  rw [hdata]
  refine ⟨by rw [parseDec_zeros, hpl], ?_⟩
  intro c hc
  rcases List.mem_append.mp hc with h | h
  · rw [(List.mem_replicate.mp h).2]
    decide
  · exact hdig c h

/-- Two runs of digits that are each followed by nothing or by a non-digit and that
start equal texts are the same run. -/
theorem digit_run_unique : ∀ (a b s t : List Char),
    (∀ c ∈ a, c.isDigit = true) → (∀ c ∈ b, c.isDigit = true) →
    (∀ c, s.head? = some c → c.isDigit = false) →
    (∀ c, t.head? = some c → c.isDigit = false) →
    a ++ s = b ++ t → a = b
  | [], [], _, _, _, _, _, _, _ => rfl
  | [], y :: b, s, t, _, hb, hs, _, h => by
    have hy := hb y (by simp)
    have : s.head? = some y := by rw [List.nil_append] at h; rw [h]; rfl
    rw [hs y this] at hy
    exact Bool.noConfusion hy
  | x :: a, [], s, t, ha, _, _, ht, h => by
    have hx := ha x (by simp)
    have : t.head? = some x := by rw [List.nil_append] at h; rw [← h]; rfl
    rw [ht x this] at hx
    exact Bool.noConfusion hx
  | x :: a, y :: b, s, t, ha, hb, hs, ht, h => by
    rw [List.cons_append, List.cons_append, List.cons.injEq] at h
    rw [h.1, digit_run_unique a b s t (fun c hc => ha c (List.mem_cons_of_mem _ hc))
      (fun c hc => hb c (List.mem_cons_of_mem _ hc)) hs ht h.2]

/-- The text of a patch name: the prefix, the digits of `pc`, and a tail that is empty
or starts with a hyphen. -/
theorem patchName_data (L : Lib) (v : mucom88VoiceFormat) (pc : Int) :
    ∃ tail : List Char, (∀ c, tail.head? = some c → c.isDigit = false) ∧
      (v.patchName L pc).data = "MUCOM88-".data ++ ((fmt03d pc).data ++ tail) := by
  by_cases h : v.sanitizedName L = ""
  · refine ⟨[], by simp, ?_⟩
    simp [mucom88VoiceFormat.patchName, h]
  · refine ⟨'-' :: (v.sanitizedName L).data, ?_, ?_⟩
    · intro c hc
      simp only [List.head?_cons, Option.some.injEq] at hc
      rw [← hc]
      decide
    · simp [mucom88VoiceFormat.patchName, h]

/-- Patch names of different non-negative patch numbers differ, whatever the records
and the sanitized names are. -/
theorem patchName_inj (L : Lib) (v w : mucom88VoiceFormat) (p q : Int)
    (hp : 0 ≤ p) (hq : 0 ≤ q) (h : v.patchName L p = w.patchName L q) : p = q := by
  obtain ⟨s, hs, hv⟩ := patchName_data L v p
  obtain ⟨t, ht, hw⟩ := patchName_data L w q
  have hd := congrArg String.data h
  rw [hv, hw] at hd
  have hrun := digit_run_unique _ _ s t (fmt03d_spec p hp).2 (fmt03d_spec q hq).2 hs ht
    (List.append_cancel_left hd)
  have hpar : p.toNat = q.toNat := by
    rw [← (fmt03d_spec p hp).1, ← (fmt03d_spec q hq).1, hrun]
  omega

/-! ## Facts about the bank converter -/

/-- From the state after `j` iterations the loop runs through all `len(b) / 32` records,
provided every write succeeds and the iteration bound is large enough. -/
theorem convertLoop_run (L : Lib) (k2c : List (String × String)) (D : Disk) (dst : String)
    (b : List (Fin 256)) (hw : ∀ p c, D.writeFile p c = .ok ()) :
    ∀ (fuel j : Nat), j ≤ b.length / 32 → b.length / 32 - j < fuel →
      convertLoop L k2c D dst b fuel (32 * j) ((j : Int) - 1) (emptyAfter L dst b j)
          ((List.range j).map (writeOf L k2c dst b)) =
        .ok (emptyAfter L dst b (b.length / 32),
          (List.range (b.length / 32)).map (writeOf L k2c dst b)) := by
  intro fuel
  induction fuel with
  | zero => intro j _ h; omega
  | succ fuel ih =>
    intro j hj hf
    unfold convertLoop
    by_cases hlt : j < b.length / 32
    · have hguard : 32 * j + 32 ≤ b.length := by omega
      have hpc : (j : Int) - 1 + 1 = j := by omega
      have hnext := ih (j + 1) hlt (by omega)
      have hcast : ((j + 1 : Nat) : Int) - 1 = j := by omega
      rw [hcast, List.range_succ, List.map_append] at hnext
      simp only [hguard, ↓reduceIte, hpc, hw]
      exact hnext
    · have hjk : j = b.length / 32 := by omega
      have hguard : ¬ 32 * j + 32 ≤ b.length := by omega
      simp only [hguard, ↓reduceIte]
      rw [← hjk]

/-- After `k` iterations `empty` holds the file names of the maximal run of records with
an empty name that ends at the record `k - 1`, in increasing order. -/
theorem emptyAfter_run (L : Lib) (dst : String) (b : List (Fin 256)) (k : Nat) :
    ∃ t, IsTrailingRun (fun j => (recordAt b j).name = "") k t ∧
      emptyAfter L dst b k = (List.range' (k - t) t).map (fileAt L dst b) := by
  induction k with
  | zero => exact ⟨0, ⟨Nat.le_refl 0, fun j _ h => absurd h (Nat.not_lt_zero j),
      fun h => absurd h (Nat.lt_irrefl 0)⟩, rfl⟩
  | succ k ih =>
    obtain ⟨t, ⟨htk, hall, hmax⟩, he⟩ := ih
    by_cases hn : (recordAt b k).name = ""
    · refine ⟨t + 1, ⟨by omega, ?_, ?_⟩, ?_⟩
      · intro j h1 h2
        by_cases hjk : j = k
        · rw [hjk]; exact hn
        · exact hall j (by omega) (by omega)
      · intro h
        have h3 : k + 1 - (t + 1) - 1 = k - t - 1 := by omega
        rw [h3]
        exact hmax (by omega)
      · have h4 : k + 1 - (t + 1) = k - t := by omega
        have h5 : k - t + t = k := by omega
        simp only [emptyAfter, hn, ↓reduceIte, he, h4, List.range'_1_concat, List.map_append,
          List.map_cons, List.map_nil, h5]
    · refine ⟨0, ⟨by omega, fun j h1 h2 => by omega, fun _ => ?_⟩, ?_⟩
      · have h3 : k + 1 - 0 - 1 = k := by omega
        rw [h3]
        exact hn
      · simp [emptyAfter, hn]

theorem applyOps_append (fs : Files) (a c : List FileOp) :
    applyOps fs (a ++ c) = applyOps (applyOps fs a) c := by
  simp [applyOps, List.foldl_append]

/-- Writes leave every other path as it was. -/
theorem applyOps_writes_other (f x : Nat → String) (fs : Files) (k : Nat) (q : String)
    (h : ∀ j < k, q ≠ f j) :
    applyOps fs ((List.range k).map (fun j => FileOp.write (f j) (x j))) q = fs q := by
  induction k with
  | zero => rfl
  | succ k ih =>
    rw [List.range_succ, List.map_append, applyOps_append]
    have hq : q ≠ f k := h k (Nat.lt_succ_self k)
    simp only [List.map_cons, List.map_nil, applyOps, List.foldl_cons, List.foldl_nil, applyOp,
      hq, ↓reduceIte]
    exact ih (fun j hj => h j (Nat.lt_succ_of_lt hj))

/-- After writes to pairwise different paths every path holds what was written to it. -/
theorem applyOps_writes_at (f x : Nat → String) (fs : Files) (k : Nat)
    (hinj : ∀ i < k, ∀ j < k, f i = f j → i = j) (j : Nat) (hj : j < k) :
    applyOps fs ((List.range k).map (fun j => FileOp.write (f j) (x j))) (f j) =
      some (x j) := by
  induction k with
  | zero => omega
  | succ k ih =>
    rw [List.range_succ, List.map_append, applyOps_append]
    simp only [List.map_cons, List.map_nil, applyOps, List.foldl_cons, List.foldl_nil, applyOp]
    by_cases hjk : j = k
    · rw [hjk]; simp
    · have hne : f j ≠ f k := fun he =>
        hjk (hinj j hj k (Nat.lt_succ_self k) he)
      simp only [hne, ↓reduceIte]
      exact ih (fun i hi i' hi' => hinj i (Nat.lt_succ_of_lt hi) i' (Nat.lt_succ_of_lt hi'))
        (by omega)

/-- Removals delete the listed paths and leave the others as they were. -/
theorem applyOps_removes (l : List String) : ∀ (fs : Files) (q : String),
    applyOps fs (l.map FileOp.remove) q = if q ∈ l then none else fs q := by
  induction l with
  | nil => intro fs q; simp [applyOps]
  | cons p rest ih =>
    intro fs q
    have h := ih (applyOp fs (FileOp.remove p)) q
    simp only [applyOps, List.map_cons, List.foldl_cons] at h ⊢
    rw [h]
    by_cases hq : q = p
    · simp [hq, applyOp]
    · by_cases hr : q ∈ rest <;> simp [hq, hr, applyOp]

/-- With every file operation succeeding, `convert` writes the file of each of the
`len(b) / 32` records in order and then removes those collected in `empty`. -/
theorem convert_ops (L : Lib) (k2c : List (String × String)) (D : Disk) (src dst : String)
    (b : List (Fin 256)) (hread : D.readFile src = .ok b) (hmk : D.mkdirAll dst = .ok ())
    (hw : ∀ p c, D.writeFile p c = .ok ()) :
    convert L k2c D src dst =
      .ok ((List.range (b.length / 32)).map (writeOf L k2c dst b) ++
        (emptyAfter L dst b (b.length / 32)).map FileOp.remove) := by
  have hrun := convertLoop_run L k2c D dst b hw (b.length + 1) 0 (Nat.zero_le _)
    (by have := Nat.div_le_self b.length 32; omega)
  simp only [List.range_zero, List.map_nil, Nat.mul_zero, emptyAfter] at hrun
  have h0 : ((0 : Nat) : Int) - 1 = -1 := by decide
  rw [h0] at hrun
  simp only [convert, hread, hmk, hrun]

/-- The three facts about the files after `convert`: records before the trailing run of
empty names keep their file, the files of that run are gone, other paths are untouched. -/
theorem convert_files (f x : Nat → String) (k t : Nat) (ht : t ≤ k)
    (hinj : ∀ i < k, ∀ j < k, f i = f j → i = j) (fs : Files) :
    (∀ j, j < k - t →
      applyOps fs ((List.range k).map (fun j => FileOp.write (f j) (x j)) ++
        ((List.range' (k - t) t).map f).map FileOp.remove) (f j) = some (x j)) ∧
    (∀ j, k - t ≤ j → j < k →
      applyOps fs ((List.range k).map (fun j => FileOp.write (f j) (x j)) ++
        ((List.range' (k - t) t).map f).map FileOp.remove) (f j) = none) ∧
    (∀ q, (∀ j < k, q ≠ f j) →
      applyOps fs ((List.range k).map (fun j => FileOp.write (f j) (x j)) ++
        ((List.range' (k - t) t).map f).map FileOp.remove) q = fs q) := by
  refine ⟨fun j hj => ?_, fun j h1 h2 => ?_, fun q hq => ?_⟩
  · rw [applyOps_append, applyOps_removes]
    have hnot : f j ∉ (List.range' (k - t) t).map f := by
      intro hmem
      obtain ⟨i, hi, hfi⟩ := List.mem_map.mp hmem
      rw [List.mem_range'_1] at hi
      have := hinj i (by omega) j (by omega) hfi
      omega
    rw [if_neg hnot]
    exact applyOps_writes_at f x fs k hinj j (by omega)
  · rw [applyOps_append, applyOps_removes]
    have hmem : f j ∈ (List.range' (k - t) t).map f :=
      List.mem_map.mpr ⟨j, List.mem_range'_1.mpr ⟨h1, by omega⟩, rfl⟩
    rw [if_pos hmem]
  · rw [applyOps_append, applyOps_removes]
    have hnot : q ∉ (List.range' (k - t) t).map f := by
      intro hmem
      obtain ⟨i, hi, hfi⟩ := List.mem_map.mp hmem
      rw [List.mem_range'_1] at hi
      exact hq i (by omega) hfi.symm
    rw [if_neg hnot]
    exact applyOps_writes_other f x fs k q hq

/-- The file names of `convert` for different records differ when `filepath.Join` keeps
different patch names apart. -/
theorem fileAt_inj (L : Lib) (dst : String) (b : List (Fin 256))
    (hjoin : ∀ (v w : mucom88VoiceFormat) (p q : Int),
      fileName L dst v p = fileName L dst w q → v.patchName L p = w.patchName L q)
    (i j : Nat) (h : fileAt L dst b i = fileAt L dst b j) : i = j := by
  have := patchName_inj L _ _ (i : Int) (j : Int) (by omega) (by omega) (hjoin _ _ _ _ h)
  omega

/-- The stand-in for `filepath.Join` keeps different names apart. -/
theorem sampleLib_join (dst : String) (v w : mucom88VoiceFormat) (p q : Int)
    (h : fileName sampleLib dst v p = fileName sampleLib dst w q) :
    v.patchName sampleLib p = w.patchName sampleLib q := by
  have hd := congrArg String.data h
  simp only [fileName, sampleLib, String.data_append] at hd
  exact String.ext (List.append_cancel_right (List.append_cancel_left hd))

/-- A record of the bank depends only on the bytes of the full 32-byte windows. -/
theorem recordAt_congr (b c : List (Fin 256)) (k j : Nat) (hj : j < k)
    (h : c.take (32 * k) = b.take (32 * k)) : recordAt c j = recordAt b j := by
  have hwin : ∀ l : List (Fin 256),
      (l.drop (32 * j)).take 32 = ((l.take (32 * k)).drop (32 * j)).take 32 := by
    intro l
    rw [List.drop_take, List.take_take]
    congr 1
    omega
  unfold recordAt recordFrom
  rw [hwin c, hwin b, h]

theorem emptyAfter_congr (L : Lib) (dst : String) (b c : List (Fin 256)) (k : Nat)
    (h : c.take (32 * k) = b.take (32 * k)) :
    ∀ j, j ≤ k → emptyAfter L dst c j = emptyAfter L dst b j := by
  intro j
  induction j with
  | zero => intro _; rfl
  | succ j ih =>
    intro hj
    have hr := recordAt_congr b c k j (by omega) h
    simp only [emptyAfter, fileAt, hr, ih (by omega)]

/-- Banks with the same number of records and the same bytes in their full 32-byte
windows make `convert` perform the same operations. -/
theorem convert_ops_congr (L : Lib) (k2c : List (String × String)) (dst : String)
    (b c : List (Fin 256)) (hk : c.length / 32 = b.length / 32)
    (h : c.take (32 * (b.length / 32)) = b.take (32 * (b.length / 32))) :
    (List.range (c.length / 32)).map (writeOf L k2c dst c) ++
        (emptyAfter L dst c (c.length / 32)).map FileOp.remove =
      (List.range (b.length / 32)).map (writeOf L k2c dst b) ++
        (emptyAfter L dst b (b.length / 32)).map FileOp.remove := by
  rw [hk, emptyAfter_congr L dst b c _ h _ (Nat.le_refl _)]
  congr 1
  apply List.map_congr_left
  intro j hj
  have hr := recordAt_congr b c _ j (List.mem_range.mp hj) h
  simp only [writeOf, fileAt, xmlAt, hr]

/-! ## Claims about the bank converter -/

/-- C1: when reading, creating the directory and writing succeed and `filepath.Join`
keeps different patch names apart, `convert` on the bytes `b` writes the files of the
`len(b) / 32` records with the patch numbers 0, 1, ... in this order and then removes
the files of the maximal run of records with empty name that ends at the last record.
Afterwards every earlier record has its file, the files of that run are gone and no
other path has changed; for the names [non-empty, empty] exactly one file is left in an
empty directory, for [non-empty, empty, non-empty] exactly three. Bytes after the last
full 32-byte window have no influence on the operations. -/
theorem convert_trailing_empty (L : Lib) (k2c : List (String × String)) (D : Disk)
    (src dst : String) (b : List (Fin 256))
    (hread : D.readFile src = .ok b) (hmk : D.mkdirAll dst = .ok ())
    (hw : ∀ p c, D.writeFile p c = .ok ())
    (hjoin : ∀ (v w : mucom88VoiceFormat) (p q : Int),
      fileName L dst v p = fileName L dst w q → v.patchName L p = w.patchName L q) :
    ∃ (t : Nat) (ops : List FileOp),
      IsTrailingRun (fun j => (recordAt b j).name = "") (b.length / 32) t ∧
      convert L k2c D src dst = .ok ops ∧
      ops = (List.range (b.length / 32)).map (writeOf L k2c dst b) ++
        ((List.range' (b.length / 32 - t) t).map (fileAt L dst b)).map FileOp.remove ∧
      (∀ fs : Files,
        (∀ j, j < b.length / 32 - t →
          applyOps fs ops (fileAt L dst b j) = some (xmlAt L k2c b j)) ∧
        (∀ j, b.length / 32 - t ≤ j → j < b.length / 32 →
          applyOps fs ops (fileAt L dst b j) = none) ∧
        (∀ q, (∀ j < b.length / 32, q ≠ fileAt L dst b j) → applyOps fs ops q = fs q)) ∧
      (b.length / 32 = 2 → (recordAt b 0).name ≠ "" → (recordAt b 1).name = "" →
        ∀ q, (applyOps (fun _ => none) ops q).isSome = true ↔ q = fileAt L dst b 0) ∧
      (b.length / 32 = 3 → (recordAt b 0).name ≠ "" → (recordAt b 1).name = "" →
        (recordAt b 2).name ≠ "" →
        (∀ q, (applyOps (fun _ => none) ops q).isSome = true ↔
          q = fileAt L dst b 0 ∨ q = fileAt L dst b 1 ∨ q = fileAt L dst b 2) ∧
        fileAt L dst b 0 ≠ fileAt L dst b 1 ∧ fileAt L dst b 0 ≠ fileAt L dst b 2 ∧
        fileAt L dst b 1 ≠ fileAt L dst b 2) ∧
      (∀ (D' : Disk) (c : List (Fin 256)), D'.readFile src = .ok c →
        D'.mkdirAll dst = .ok () → (∀ p x, D'.writeFile p x = .ok ()) →
        c.length / 32 = b.length / 32 →
        c.take (32 * (b.length / 32)) = b.take (32 * (b.length / 32)) →
        convert L k2c D' src dst = .ok ops) := by
  obtain ⟨t, hrun, hempty⟩ := emptyAfter_run L dst b (b.length / 32)
  have hinj : ∀ i < b.length / 32, ∀ j < b.length / 32,
      fileAt L dst b i = fileAt L dst b j → i = j :=
    fun i _ j _ h => fileAt_inj L dst b hjoin i j h
  have hfiles := fun fs : Files =>
    convert_files (fileAt L dst b) (xmlAt L k2c b) (b.length / 32) t hrun.1 hinj fs
  have hwrite : (fun j => FileOp.write (fileAt L dst b j) (xmlAt L k2c b j)) =
      writeOf L k2c dst b := rfl
  rw [hwrite] at hfiles
  refine ⟨t, _, hrun, ?_, rfl, hfiles, ?_, ?_, ?_⟩
  · rw [convert_ops L k2c D src dst b hread hmk hw, hempty]
  · intro hk h0 h1 q
    obtain ⟨hA, hB, hC⟩ := hfiles (fun _ => none)
    obtain ⟨htk, hall, hmax⟩ := hrun
    have ht1 : t = 1 := by
      rcases Nat.lt_or_ge t 1 with h | h
      · have := hmax (by omega)
        have h3 : b.length / 32 - t - 1 = 1 := by omega
        rw [h3] at this
        exact absurd h1 this
      · rcases Nat.lt_or_ge t 2 with h' | h'
        · omega
        · exact absurd (hall 0 (by omega) (by omega)) h0
    constructor
    · intro hq
      by_contra hne
      by_cases hq1 : q = fileAt L dst b 1
      · rw [hq1, hB 1 (by omega) (by omega)] at hq
        exact Bool.noConfusion hq
      · have hother : ∀ j < b.length / 32, q ≠ fileAt L dst b j := by
          intro j hj
          have hj2 : j < 2 := by omega
          interval_cases j
          · exact hne
          · exact hq1
        rw [hC q hother] at hq
        exact Bool.noConfusion hq
    · intro hq
      rw [hq, hA 0 (by omega)]
      rfl
  · intro hk h0 h1 h2
    obtain ⟨hA, hB, hC⟩ := hfiles (fun _ => none)
    obtain ⟨htk, hall, hmax⟩ := hrun
    have ht0 : t = 0 := by
      rcases Nat.eq_zero_or_pos t with h | h
      · exact h
      · exact absurd (hall 2 (by omega) (by omega)) h2
    refine ⟨fun q => ⟨fun hq => ?_, fun hq => ?_⟩, ?_, ?_, ?_⟩
    · by_contra hne
      have hother : ∀ j < b.length / 32, q ≠ fileAt L dst b j := by
        intro j hj hqj
        have hj3 : j < 3 := by omega
        interval_cases j
        · exact hne (Or.inl hqj)
        · exact hne (Or.inr (Or.inl hqj))
        · exact hne (Or.inr (Or.inr hqj))
      rw [hC q hother] at hq
      exact Bool.noConfusion hq
    · rcases hq with rfl | rfl | rfl
      · rw [hA 0 (by omega)]; rfl
      · rw [hA 1 (by omega)]; rfl
      · rw [hA 2 (by omega)]; rfl
    · intro h; have := hinj 0 (by omega) 1 (by omega) h; omega
    · intro h; have := hinj 0 (by omega) 2 (by omega) h; omega
    · intro h; have := hinj 1 (by omega) 2 (by omega) h; omega
  · intro D' c hread' hmk' hw' hk hc
    rw [convert_ops L k2c D' src dst c hread' hmk' hw', convert_ops_congr L k2c dst b c hk hc,
      hempty]

set_option maxRecDepth 100000 in
theorem convert_trailing_empty_witness :
    sampleBank.length = 67 ∧
    ∃ ops, convert sampleLib keywordToCategory (sampleDisk sampleBank) "voice.dat" "output" =
        .ok ops ∧
      ∀ q, (applyOps (fun _ => none) ops q).isSome = true ↔
        q = "output/MUCOM88-000-A.rym2612" := by
  obtain ⟨t, ops, -, hconv, -, -, h2, -, -⟩ :=
    convert_trailing_empty sampleLib keywordToCategory (sampleDisk sampleBank) "voice.dat"
      "output" sampleBank rfl rfl (fun _ _ => rfl) (sampleLib_join "output")
  have hname : fileAt sampleLib "output" sampleBank 0 = "output/MUCOM88-000-A.rym2612" := by
    decide
  refine ⟨by decide, ops, hconv, fun q => ?_⟩
  rw [← hname]
  exact h2 (by decide) (by decide) (by decide) q

/-! ## Claims about the carrier matrix and the remapped fields -/

/-- C11: `carriers` has 8 rows of 4 entries; in the rows 0..3 exactly the operator 3 is
a carrier and in the row 7 all four are; so for algorithm 0 the operator 3 gets the
velocity split and the operators 0..2 are emitted with velocity 0 and their full
inverted level. -/
theorem carriers_matrix (v : mucom88VoiceFormat) (h0 : v.al = 0) :
    carriers.length = 8 ∧ (∀ row ∈ carriers, row.length = 4) ∧
    (∀ al < 4, ∀ op < 4, (carriers.getD al []).getD op false = decide (op = 3)) ∧
    (∀ op < 4, (carriers.getD 7 []).getD op false = true) ∧
    v.levels 3 = ((127 - (v.tl 3 : Int)) / 2,
      (127 - (v.tl 3 : Int)) - (127 - (v.tl 3 : Int)) / 2) ∧
    (v.opBuf 3).get? 0 = some (opParam 4 "Vel" (fmtF1 ((127 - (v.tl 3 : Int)) / 2))) ∧
    (v.opBuf 3).get? 1 = some (opParam 4 "TL"
      (fmtF1 ((127 - (v.tl 3 : Int)) - (127 - (v.tl 3 : Int)) / 2))) ∧
    (∀ op < 3, v.levels op = (0, 127 - (v.tl op : Int)) ∧
      (v.opBuf op).get? 0 = some (opParam (op + 1) "Vel" "0.0") ∧
      (v.opBuf op).get? 1 = some (opParam (op + 1) "TL" (fmtF1 (127 - (v.tl op : Int))))) := by
  have h3 : v.levels 3 = ((127 - (v.tl 3 : Int)) / 2,
      (127 - (v.tl 3 : Int)) - (127 - (v.tl 3 : Int)) / 2) := by
    unfold mucom88VoiceFormat.levels
    rw [h0]
    rfl
  refine ⟨rfl, by decide, by decide, by decide, h3, ?_, ?_, ?_⟩
  · show some (opParam 4 "Vel" (fmtF1 (v.levels 3).1)) = _
    rw [h3]
  · show some (opParam 4 "TL" (fmtF1 (v.levels 3).2)) = _
    rw [h3]
  · intro op hop
    have hl : v.levels op = (0, 127 - (v.tl op : Int)) := by
      unfold mucom88VoiceFormat.levels
      rw [h0]
      interval_cases op <;> rfl
    refine ⟨hl, ?_, ?_⟩
    · show some (opParam (op + 1) "Vel" (fmtF1 (v.levels op).1)) = _
      rw [hl]
      rfl
    · show some (opParam (op + 1) "TL" (fmtF1 (v.levels op).2)) = _
      rw [hl]

theorem carriers_matrix_witness :
    layoutSample.al = 0 ∧ layoutSample.levels 3 = (63, 64) ∧
    layoutSample.levels 1 = (0, 127) :=
  have h := carriers_matrix layoutSample (by decide)
  ⟨by decide, h.2.2.2.2.1.trans (by decide),
    (h.2.2.2.2.2.2.2 1 (by decide)).1.trans (by decide)⟩

/-- C12: the detune value in the `DT` line is `dt(op)` for `dt(op)` in 0..3 and
`4 - dt(op)` for `dt(op)` in 4..7; it lies in -3..3, and detune 5 is emitted as -1. -/
theorem detune_fold (v : mucom88VoiceFormat) (op : Nat) :
    (v.opBuf op).get? 8 = some (opParam (op + 1) "DT" (fmtF1 (v.detune op))) ∧
    (∀ (L : Lib) (k2c : List (String × String)) (pc : Int), op < 4 →
      opParam (op + 1) "DT" (fmtF1 (v.detune op)) ∈ v.toRYM2612Lines L k2c pc) ∧
    v.dt op ≤ 7 ∧
    (v.dt op ≤ 3 → v.detune op = (v.dt op : Int)) ∧
    (4 ≤ v.dt op → v.detune op = 4 - (v.dt op : Int)) ∧
    -3 ≤ v.detune op ∧ v.detune op ≤ 3 ∧
    (v.dt op = 5 → v.detune op = -1 ∧ fmtF1 (v.detune op) = "-1.0") := by
  have hdt : v.dt op ≤ 7 := by
    have h := (accessor_eqs v op).2.1
    omega
  have hlo : v.dt op ≤ 3 → v.detune op = (v.dt op : Int) := by
    intro h
    unfold mucom88VoiceFormat.detune
    rw [if_neg (by omega)]
  have hhi : 4 ≤ v.dt op → v.detune op = 4 - (v.dt op : Int) := by
    intro h
    unfold mucom88VoiceFormat.detune
    rw [if_pos (by omega)]
  refine ⟨rfl, fun L k2c pc hop => opBuf_mem_lines L k2c v pc op 8 hop (by decide), hdt, hlo,
    hhi, ?_, ?_, ?_⟩
  · rcases Nat.lt_or_ge (v.dt op) 4 with h | h
    · rw [hlo (by omega)]; omega
    · rw [hhi h]; omega
  · rcases Nat.lt_or_ge (v.dt op) 4 with h | h
    · rw [hlo (by omega)]; omega
    · rw [hhi h]; omega
  · intro h5
    have hd : v.detune op = -1 := by rw [hhi (by omega), h5]; rfl
    exact ⟨hd, by rw [hd]; decide⟩

/-- C13: the value in the `MUL` line is the entry of the 16-entry table `muls` at the
index `ml(op)`, which is inside the table; it lies in 0..15000, and multiple 3 is
emitted as 2635. -/
theorem mul_lookup (v : mucom88VoiceFormat) (op : Nat) :
    muls = [0, 1054, 1581, 2635, 3689, 4743, 5797, 6851, 7905, 8959, 10013, 10540, 11594,
      12648, 14229, 15000] ∧
    muls.length = 16 ∧ v.ml op < muls.length ∧
    muls.get? (v.ml op) = some (muls.getD (v.ml op) 0) ∧
    (v.opBuf op).get? 6 = some (opParam (op + 1) "MUL" (fmtF1 (muls.getD (v.ml op) 0))) ∧
    (∀ (L : Lib) (k2c : List (String × String)) (pc : Int), op < 4 →
      opParam (op + 1) "MUL" (fmtF1 (muls.getD (v.ml op) 0)) ∈ v.toRYM2612Lines L k2c pc) ∧
    0 ≤ muls.getD (v.ml op) 0 ∧ muls.getD (v.ml op) 0 ≤ 15000 ∧
    (v.ml op = 3 → muls.getD (v.ml op) 0 = 2635 ∧ fmtF1 (muls.getD (v.ml op) 0) = "2635.0") := by
  have hml : v.ml op ≤ 15 := by
    have h := (accessor_eqs v op).1
    omega
  have hall : ∀ m ≤ 15, muls.get? m = some (muls.getD m 0) ∧ 0 ≤ muls.getD m 0 ∧
      muls.getD m 0 ≤ 15000 := by decide
  refine ⟨rfl, rfl, Nat.lt_succ_of_le hml, (hall _ hml).1, rfl,
    fun L k2c pc hop => opBuf_mem_lines L k2c v pc op 6 hop (by decide),
    (hall _ hml).2.1, (hall _ hml).2.2, fun h3 => ?_⟩
  rw [h3]
  exact ⟨by decide, by decide⟩

/-- C14: the `D2L` line carries `15 - sl(op)`, which lies in 0..15 (11 for sustain
level 4), and the lines `AR`, `D1R`, `D2R`, `RR`, `RS`, `AM` carry `ar(op)`, `dr(op)`,
`sr(op)`, `rr(op)`, `ks(op)`, `am(op)` unchanged. -/
theorem passthrough_fields (v : mucom88VoiceFormat) (op : Nat) :
    (v.opBuf op).get? 10 = some (opParam (op + 1) "D2L" (fmtF1 (15 - (v.sl op : Int)))) ∧
    0 ≤ 15 - (v.sl op : Int) ∧ 15 - (v.sl op : Int) ≤ 15 ∧
    (v.sl op = 4 → fmtF1 (15 - (v.sl op : Int)) = "11.0") ∧
    (v.opBuf op).get? 12 = some (opParam (op + 1) "AR" (fmtF1 (v.ar op))) ∧
    (v.opBuf op).get? 11 = some (opParam (op + 1) "D1R" (fmtF1 (v.dr op))) ∧
    (v.opBuf op).get? 9 = some (opParam (op + 1) "D2R" (fmtF1 (v.sr op))) ∧
    (v.opBuf op).get? 4 = some (opParam (op + 1) "RR" (fmtF1 (v.rr op))) ∧
    (v.opBuf op).get? 3 = some (opParam (op + 1) "RS" (fmtF1 (v.ks op))) ∧
    (v.opBuf op).get? 13 = some (opParam (op + 1) "AM" (fmtF1 (v.am op))) ∧
    (∀ (L : Lib) (k2c : List (String × String)) (pc : Int), op < 4 →
      ∀ i, 3 ≤ i → i < 14 → (v.opBuf op).getD i "" ∈ v.toRYM2612Lines L k2c pc) := by
  have hsl : v.sl op ≤ 15 := by
    have h := (accessor_eqs v op).2.2.2.2.2.2.2.2.2.1
    have hb := get_lt v (21 + op2offset op) (opIdx_lt 21 op (by decide))
    omega
  refine ⟨rfl, by omega, by omega, fun h4 => by rw [h4]; decide, rfl, rfl, rfl, rfl, rfl, rfl,
    fun L k2c pc hop i _ hi => opBuf_mem_lines L k2c v pc op i hop hi⟩

theorem detune_fold_witness :
    encoderSample.dt 0 = 5 ∧ encoderSample.detune 0 = -1 ∧
    fmtF1 (encoderSample.detune 0) = "-1.0" :=
  ⟨by decide, (detune_fold encoderSample 0).2.2.2.2.2.2.2 (by decide)⟩

theorem mul_lookup_witness :
    encoderSample.ml 0 = 3 ∧ muls.getD (encoderSample.ml 0) 0 = 2635 ∧
    fmtF1 (muls.getD (encoderSample.ml 0) 0) = "2635.0" :=
  ⟨by decide, (mul_lookup encoderSample 0).2.2.2.2.2.2.2.2 (by decide)⟩

theorem passthrough_fields_witness :
    encoderSample.sl 0 = 4 ∧ fmtF1 (15 - (encoderSample.sl 0 : Int)) = "11.0" :=
  ⟨by decide, (passthrough_fields encoderSample 0).2.2.2.1 (by decide)⟩

/-! ## Facts about the layout of the document -/

/-- The slice `buf[op]` pairs the attribute names with the values of the operator. -/
theorem opBuf_eq (v : mucom88VoiceFormat) (op : Nat) :
    v.opBuf op = (attrNames.zip (opValues v op)).map (fun e => opParam (op + 1) e.1 e.2) :=
  rfl

/-- The document is the header, the per-operator lines and the fixed lines. -/
theorem lines_split (L : Lib) (k2c : List (String × String)) (v : mucom88VoiceFormat)
    (pc : Int) :
    v.toRYM2612Lines L k2c pc =
      (v.toRYM2612Lines L k2c pc).take 3 ++
      (List.range 14).flatMap (fun i => [3, 2, 1, 0].map (fun op =>
        opParam (op + 1) (attrNames.getD i "") ((opValues v op).getD i ""))) ++
      (v.toRYM2612Lines L k2c pc).drop 59 :=
  rfl

theorem isOpLine_opParam (i : Nat) (attr value : String) :
    isOpLine (opParam i attr value) = true := by
  simp only [isOpLine, opParam, String.data_append, List.append_assoc, decide_eq_true_eq]
  exact List.prefix_append _ _

/-- A line that starts with a text of at least 15 characters which is no per-operator
parameter is none either. -/
theorem isOpLine_of_start (a s : String) (hpre : a.data <+: s.data)
    (hlen : 15 ≤ a.data.length) (ha : isOpLine a = false) : isOpLine s = false := by
  simp only [isOpLine, decide_eq_false_iff_not] at ha ⊢
  intro hs
  exact ha (List.prefix_of_prefix_length_le hs hpre hlen)

/-- The per-operator parameter lines of the document are the lines of its middle part:
for each of the 14 attributes the lines of the operators 4, 3, 2, 1. -/
theorem opLines_eq (L : Lib) (k2c : List (String × String)) (v : mucom88VoiceFormat)
    (pc : Int) :
    (v.toRYM2612Lines L k2c pc).filter isOpLine =
      (List.range 14).flatMap (fun i => [3, 2, 1, 0].map (fun op =>
        opParam (op + 1) (attrNames.getD i "") ((opValues v op).getD i ""))) := by
  have hhead : ((v.toRYM2612Lines L k2c pc).take 3).filter isOpLine = [] := by
    rw [List.filter_eq_nil_iff]
    intro s hs
    have hs' : s ∈ ["<?xml version=\"1.0\" encoding=\"UTF-8\"?>", "",
        "<RYM2612Params patchName=\"" ++ v.patchName L pc ++ "\" category=\"" ++
          v.category L.lower k2c ++ "\" rating=\"3\" type=\"User\">"] := hs
    simp only [List.mem_cons, List.mem_singleton, List.not_mem_nil, or_false] at hs'
    rcases hs' with rfl | rfl | rfl
    · decide
    · decide
    · rw [isOpLine_of_start "<RYM2612Params patchName=\"" _
        (by simp only [String.data_append, List.append_assoc]; exact List.prefix_append _ _)
        (by decide) (by decide)]
      exact Bool.false_ne_true
  have htail : ((v.toRYM2612Lines L k2c pc).drop 59).filter isOpLine = [] := by
    rw [List.filter_eq_nil_iff]
    intro s hs
    have hs' : s ∈ ["  <PARAM id=\"volume\" value=\"0.4483062326908112\"/>",
        "  <PARAM id=\"Ladder_Effect\" value=\"0.0\"/>",
        "  <PARAM id=\"Output_Filtering\" value=\"0.0\"/>",
        "  <PARAM id=\"Polyphony\" value=\"8.0\"/>",
        "  <PARAM id=\"TimerA\" value=\"0.2000000029802322\"/>",
        "  <PARAM id=\"Spec_Mode\" value=\"2.0\"/>",
        "  <PARAM id=\"Pitchbend_Range\" value=\"2.0\"/>",
        "  <PARAM id=\"Legato_Retrig\" value=\"0.0\"/>",
        "  <PARAM id=\"LFO_Speed\" value=\"2.0\"/>",
        "  <PARAM id=\"LFO_Enable\" value=\"1.0\"/>",
        "  <PARAM id=\"Feedback\" value=\"" ++ fmtF1 v.fb ++ "\"/>",
        "  <PARAM id=\"FMSMW\" value=\"100.0\"/>",
        "  <PARAM id=\"FMS\" value=\"0.0\"/>",
        "  <PARAM id=\"DAC_Prescaler\" value=\"1.0\"/>",
        "  <PARAM id=\"Algorithm\" value=\"" ++ fmtF1 (1 + (v.al : Int)) ++ "\"/>",
        "  <PARAM id=\"AMS\" value=\"0.0\"/>",
        "  <PARAM id=\"masterTune\"/>",
        "</RYM2612Params>"] := hs
    simp only [List.mem_cons, List.mem_singleton, List.not_mem_nil, or_false] at hs'
    rcases hs' with rfl | rfl | rfl | rfl | rfl | rfl | rfl | rfl | rfl | rfl | rfl | rfl |
      rfl | rfl | rfl | rfl | rfl | rfl
    all_goals first
      | decide
      | (rw [isOpLine_of_start "  <PARAM id=\"Feedback\" value=\"" _
          (by simp only [String.data_append, List.append_assoc]; exact List.prefix_append _ _)
          (by decide) (by decide)]
         exact Bool.false_ne_true)
      | (rw [isOpLine_of_start "  <PARAM id=\"Algorithm\" value=\"" _
          (by simp only [String.data_append, List.append_assoc]; exact List.prefix_append _ _)
          (by decide) (by decide)]
         exact Bool.false_ne_true)
  have hmid : ((List.range 14).flatMap (fun i => [3, 2, 1, 0].map (fun op =>
      opParam (op + 1) (attrNames.getD i "") ((opValues v op).getD i "")))).filter isOpLine =
      (List.range 14).flatMap (fun i => [3, 2, 1, 0].map (fun op =>
        opParam (op + 1) (attrNames.getD i "") ((opValues v op).getD i ""))) := by
    rw [List.filter_eq_self]
    intro s hs
    obtain ⟨i, -, hi⟩ := List.mem_flatMap.mp hs
    obtain ⟨op, -, rfl⟩ := List.mem_map.mp hi
    exact isOpLine_opParam _ _ _
  rw [lines_split L k2c v pc, List.filter_append, List.filter_append, hhead, htail, hmid]
  rfl

/-- The document holds 56 per-operator parameter lines. -/
theorem opLine_count (L : Lib) (k2c : List (String × String)) (v : mucom88VoiceFormat)
    (pc : Int) : ((v.toRYM2612Lines L k2c pc).filter isOpLine).length = 56 := by
  rw [opLines_eq]
  rfl

/-! ## Claims about the layout of the document -/

/-- C15: the per-operator lines follow the three header lines; the line at the position
`3 + 4 * i + r` is the line of the attribute number `i` of `attrNames`, a list of
different names that does not depend on the record, for the operator `4 - r`: each
attribute group is complete before the next one starts and runs through OP4, OP3, OP2,
OP1. -/
theorem lines_grouped (L : Lib) (k2c : List (String × String)) (v : mucom88VoiceFormat)
    (pc : Int) :
    attrNames.Nodup ∧ attrNames.length = 14 ∧
    (v.toRYM2612Lines L k2c pc).filter isOpLine =
      ((v.toRYM2612Lines L k2c pc).drop 3).take 56 ∧
    ∀ i < 14, ∀ r < 4,
      (v.toRYM2612Lines L k2c pc).get? (3 + 4 * i + r) =
        some (opParam (4 - r) (attrNames.getD i "") ((opValues v (3 - r)).getD i "")) := by
  refine ⟨by decide, rfl, ?_, ?_⟩
  · rw [opLines_eq]
    rfl
  · intro i hi r hr
    interval_cases i <;> interval_cases r <;> rfl

set_option maxRecDepth 100000 in
theorem lines_grouped_witness :
    (layoutSample.toRYM2612Lines sampleLib keywordToCategory 0).get? (3 + 4 * 1 + 2) =
      some "  <PARAM id=\"OP2TL\" value=\"127.0\"/>" :=
  ((lines_grouped sampleLib keywordToCategory layoutSample 0).2.2.2 1 (by decide) 2
    (by decide)).trans (by decide)

/-- C16 as stated fails: a document holds 56 per-operator lines, not 52, in 14 groups,
not 13. -/
theorem opLines_not_52 :
    ((layoutSample.toRYM2612Lines sampleLib keywordToCategory 0).filter isOpLine).length = 56 ∧
    ((layoutSample.toRYM2612Lines sampleLib keywordToCategory 0).filter isOpLine).length ≠ 52 ∧
    (layoutSample.opBuf 0).length = 14 ∧ (layoutSample.opBuf 0).length ≠ 13 := by
  have h := opLine_count sampleLib keywordToCategory layoutSample 0
  refine ⟨h, ?_, rfl, by decide⟩
  rw [h]
  decide

/-- C16 (amended): the encoder emits exactly 14 per-operator attribute slots, that is,
14 attribute groups of four operator lines each, 56 per-operator lines in total. -/
theorem opLines_count (L : Lib) (k2c : List (String × String)) (v : mucom88VoiceFormat)
    (pc : Int) :
    attrNames.length = 14 ∧ (∀ op, (v.opBuf op).length = 14) ∧
    (v.toRYM2612Lines L k2c pc).filter isOpLine =
      (List.range 14).flatMap (fun i => [3, 2, 1, 0].map (fun op =>
        opParam (op + 1) (attrNames.getD i "") ((opValues v op).getD i ""))) ∧
    ((v.toRYM2612Lines L k2c pc).filter isOpLine).length = 56 ∧ 56 = 14 * 4 :=
  ⟨rfl, fun _ => rfl, opLines_eq L k2c v pc, opLine_count L k2c v pc, rfl⟩

theorem opLines_count_witness :
    (encoderSample.opBuf 2).length = 14 ∧
    ((encoderSample.toRYM2612Lines sampleLib keywordToCategory 5).filter isOpLine).length = 56 :=
  ⟨(opLines_count sampleLib keywordToCategory encoderSample 5).2.1 2,
    (opLines_count sampleLib keywordToCategory encoderSample 5).2.2.2.1⟩

/-- Padding to width 3 adds zeros to a text with fewer than 3 characters only. -/
theorem padZero_eq (d : String) :
    padZero 3 d =
      if d.length < 3 then String.mk (List.replicate (3 - d.length) '0') ++ d else d := by
  have hl : d.length = d.data.length := rfl
  apply String.ext
  by_cases h : d.length < 3
  · rw [if_pos h]
    rfl
  · rw [if_neg h]
    have h0 : 3 - d.data.length = 0 := by omega
    simp only [padZero, h0, List.replicate_zero, List.nil_append]

/-! ## Claims about patch names and name decoding -/

/-- C17: for a patch number `pc ≥ 0` the patch name is "MUCOM88-", then `pc` in decimal
padded with zeros to at least 3 digits, then a hyphen and the sanitized name if that is
not empty, and nothing more if it is empty; the sanitized name is whatever the library
functions of `L` return. -/
theorem patchName_format (L : Lib) (v : mucom88VoiceFormat) (pc : Int) (hpc : 0 ≤ pc) :
    fmt03d pc = decimalPad3 pc.toNat ∧
    3 ≤ (decimalPad3 pc.toNat).length ∧
    parseDec (decimalPad3 pc.toNat).data = pc.toNat ∧
    (∀ c ∈ (decimalPad3 pc.toNat).data, c.isDigit = true) ∧
    (v.sanitizedName L ≠ "" →
      v.patchName L pc = "MUCOM88-" ++ decimalPad3 pc.toNat ++ "-" ++ v.sanitizedName L) ∧
    (v.sanitizedName L = "" → v.patchName L pc = "MUCOM88-" ++ decimalPad3 pc.toNat) ∧
    decimalPad3 7 = "007" ∧ decimalPad3 42 = "042" ∧ decimalPad3 123 = "123" ∧
    decimalPad3 1234 = "1234" := by
  have hfmt : fmt03d pc = decimalPad3 pc.toNat := by
    simp only [fmt03d, hpc, ↓reduceIte]
    exact padZero_eq (toString pc.toNat)
  have hspec := fmt03d_spec pc hpc
  rw [hfmt] at hspec
  refine ⟨hfmt, ?_, hspec.1, hspec.2, ?_, ?_, by decide, by decide, by decide, by decide⟩
  · rw [← hfmt]
    simp only [fmt03d, hpc, ↓reduceIte, padZero, String.length, List.length_append,
      List.length_replicate]
    omega
  · intro hs
    simp only [mucom88VoiceFormat.patchName, hs, ne_eq, not_false_eq_true, ↓reduceIte, hfmt,
      String.append_assoc]
  · intro hs
    apply String.ext
    simp [mucom88VoiceFormat.patchName, hs, hfmt]

theorem patchName_format_witness :
    (withNameBytes [0x41, 0x42]).patchName sampleLib 7 = "MUCOM88-007-AB" ∧
    (withNameBytes []).patchName sampleLib 1234 = "MUCOM88-1234" :=
  ⟨((patchName_format sampleLib (withNameBytes [0x41, 0x42]) 7 (by decide)).2.2.2.2.1
      (by decide)).trans (by decide),
    ((patchName_format sampleLib (withNameBytes []) 1234 (by decide)).2.2.2.2.2.1
      (by decide)).trans (by decide)⟩

/-- C19: `chars` has exactly 128 entries, so the lookup `chars[b-0x80]` is inside the
table for every byte from 0x80; `name` is a total function: it depends on the bytes
26..31 only, and its result has at most 6 characters. -/
theorem name_total (v : mucom88VoiceFormat) :
    chars.length = 128 ∧
    (∀ b : Fin 256, 0x80 ≤ b.val → b.val - 0x80 < chars.length) ∧
    (∀ b ∈ v.nameBytes, 0x80 ≤ b.val → chars.get? (b.val - 0x80) = some (decodeByte b)) ∧
    (∃ s : String, v.name = s ∧ s.length ≤ 6) ∧
    (∀ w : mucom88VoiceFormat, (∀ i : Fin 32, 26 ≤ i.val → v.byte i = w.byte i) →
      v.name = w.name) := by
  have hidx : ∀ b : Fin 256, 0x80 ≤ b.val → b.val - 0x80 < chars.length := by
    intro b _
    have := b.isLt
    rw [chars_length]
    omega
  refine ⟨chars_length, hidx, ?_, ⟨v.name, rfl, ?_⟩, ?_⟩
  · intro b _ hb
    have hlt := hidx b hb
    have hd : decodeByte b = chars.getD (b.val - 0x80) ' ' := by
      unfold decodeByte
      rw [if_pos hb]
    rw [hd, List.getD_eq_getElem _ _ hlt, List.get?_eq_getElem?]
    exact List.getElem?_eq_getElem hlt
  · rw [name_eq_nameSpec, mucom88VoiceFormat.nameSpec]
    have h1 : ((((v.nameBytes.takeWhile (fun b => b.val ≠ 0)).map decodeByte).dropWhile
        isSpace).rdropWhile isSpace).length ≤
        (((v.nameBytes.takeWhile (fun b => b.val ≠ 0)).map decodeByte).dropWhile
          isSpace).length := ( List.rdropWhile_prefix isSpace _).length_le
    have h2 : (((v.nameBytes.takeWhile (fun b => b.val ≠ 0)).map decodeByte).dropWhile
        isSpace).length ≤
        ((v.nameBytes.takeWhile (fun b => b.val ≠ 0)).map decodeByte).length :=
      (List.dropWhile_suffix isSpace).length_le
    have h3 : (v.nameBytes.takeWhile (fun b => b.val ≠ 0)).length ≤ v.nameBytes.length :=
      ( List.takeWhile_prefix _).length_le
    have h4 : v.nameBytes.length = 6 := rfl
    rw [List.length_map] at h2
    show ((((v.nameBytes.takeWhile (fun b => b.val ≠ 0)).map decodeByte).dropWhile
      isSpace).rdropWhile isSpace).length ≤ 6
    omega
  · intro w h
    have hb : v.nameBytes = w.nameBytes := by
      simp only [mucom88VoiceFormat.nameBytes]
      rw [h 26 (by decide), h 27 (by decide), h 28 (by decide), h 29 (by decide),
        h 30 (by decide), h 31 (by decide)]
    simp only [mucom88VoiceFormat.name, hb]

set_option maxRecDepth 4000 in
theorem name_total_witness :
    (withNameBytes [0xB6, 0xDE, 0x41]).name = "カ゛A" ∧
    (withNameBytes [0xB6, 0xDE, 0x41]).name =
      (mucom88VoiceFormat.ofList (List.replicate 26 7 ++ [0xB6, 0xDE, 0x41])).name :=
  ⟨by decide,
    (name_total (withNameBytes [0xB6, 0xDE, 0x41])).2.2.2.2
      (mucom88VoiceFormat.ofList (List.replicate 26 7 ++ [0xB6, 0xDE, 0x41])) (by decide)⟩

/-! ## Claims about the order of the keyword table -/

theorem keywordToCategoryRev_isInitResult : IsInitResult keywordToCategoryRev := by
  refine ⟨categories.reverse, List.reverse_perm _, List.perm_insertionSort _ _, ?_⟩
  have htot : IsTotal (String × String) byLength := ⟨fun a b => Nat.le_total _ _⟩
  have htr : IsTrans (String × String) byLength := ⟨fun a b c hab hbc => Nat.le_trans hbc hab⟩
  exact List.sorted_insertionSort byLength _

/-- Two tables that `init` can produce give the same category for a name in which the
occurring keywords of maximal length all belong to one category. -/
theorem guessCategory_same_of_unique (lower : Char → Char) (k1 k2 : List (String × String))
    (h1 : IsInitResult k1) (h2 : IsInitResult k2) (name : String)
    (hocc : ∃ e ∈ initAppend categories, contains (toLower lower name) e.1 = true)
    (huniq : ∀ e ∈ initAppend categories, ∀ e' ∈ initAppend categories,
      contains (toLower lower name) e.1 = true → contains (toLower lower name) e'.1 = true →
      e.1.utf8ByteSize = e'.1.utf8ByteSize → e.2 = e'.2) :
    guessCategory lower k1 name = guessCategory lower k2 name := by
  obtain ⟨e1, he1, hc1, hg1, hm1⟩ := guessCategory_match lower k1 h1 name hocc
  obtain ⟨e2, he2, hc2, hg2, hm2⟩ := guessCategory_match lower k2 h2 name hocc
  rw [hg1, hg2]
  exact huniq e1 he1 e2 he2 hc1 hc2 (Nat.le_antisymm (hm2 e1 he1 hc1) (hm1 e2 he2 hc2))

set_option maxRecDepth 100000 in
/-- C18 fails on the code: the record named "BASSTR" holds the keywords "bas" (Bass) and
"str" (Strings), both 3 bytes long; two tables that `init` can produce, one from the map
visited in source order and one from the reverse order, classify it differently. -/
theorem guessCategory_order_dependent :
    IsInitResult keywordToCategory ∧ IsInitResult keywordToCategoryRev ∧
    (withNameBytes [0x42, 0x41, 0x53, 0x53, 0x54, 0x52]).name = "BASSTR" ∧
    guessCategory Char.toLower keywordToCategory "BASSTR" = "Bass" ∧
    guessCategory Char.toLower keywordToCategoryRev "BASSTR" = "Strings" ∧
    (withNameBytes [0x42, 0x41, 0x53, 0x53, 0x54, 0x52]).category Char.toLower
        keywordToCategory ≠
      (withNameBytes [0x42, 0x41, 0x53, 0x53, 0x54, 0x52]).category Char.toLower
        keywordToCategoryRev :=
  ⟨keywordToCategory_isInitResult, keywordToCategoryRev_isInitResult, by decide, by decide,
    by decide, by decide⟩

/-! ## Claims about file name collisions -/

/-- C20: patch names of different non-negative patch numbers differ, whatever the
records and their sanitized names are; so, with `filepath.Join` keeping different patch
names apart, the records of a bank get different file names, `convert` writes each
record to its own file, every removal concerns the file of a record with an empty name,
and the file of a record with a non-empty name is never removed. -/
theorem patchName_no_collision (L : Lib) (k2c : List (String × String)) (D : Disk)
    (src dst : String) (b : List (Fin 256))
    (hread : D.readFile src = .ok b) (hmk : D.mkdirAll dst = .ok ())
    (hw : ∀ p c, D.writeFile p c = .ok ())
    (hjoin : ∀ (v w : mucom88VoiceFormat) (p q : Int),
      fileName L dst v p = fileName L dst w q → v.patchName L p = w.patchName L q) :
    (∀ (v w : mucom88VoiceFormat) (p q : Int), 0 ≤ p → 0 ≤ q → p ≠ q →
      v.patchName L p ≠ w.patchName L q) ∧
    (∀ i j, i ≠ j → fileAt L dst b i ≠ fileAt L dst b j) ∧
    ∃ ops, convert L k2c D src dst = .ok ops ∧
      (∀ j < b.length / 32, FileOp.write (fileAt L dst b j) (xmlAt L k2c b j) ∈ ops) ∧
      (∀ path, FileOp.remove path ∈ ops →
        ∃ j < b.length / 32, path = fileAt L dst b j ∧ (recordAt b j).name = "") ∧
      (∀ j < b.length / 32, (recordAt b j).name ≠ "" →
        FileOp.remove (fileAt L dst b j) ∉ ops ∧
        ∀ fs : Files, applyOps fs ops (fileAt L dst b j) = some (xmlAt L k2c b j)) := by
  have hinj : ∀ i j, fileAt L dst b i = fileAt L dst b j → i = j :=
    fun i j h => fileAt_inj L dst b hjoin i j h
  obtain ⟨t, ⟨htk, hall, hmax⟩, hempty⟩ := emptyAfter_run L dst b (b.length / 32)
  have hrem : ∀ path, FileOp.remove path ∈
      (List.range (b.length / 32)).map (writeOf L k2c dst b) ++
        (emptyAfter L dst b (b.length / 32)).map FileOp.remove →
      ∃ j < b.length / 32, path = fileAt L dst b j ∧ (recordAt b j).name = "" := by
    intro path hmem
    rcases List.mem_append.mp hmem with h | h
    · obtain ⟨j, -, hj⟩ := List.mem_map.mp h
      exact FileOp.noConfusion hj
    · obtain ⟨q, hq, hqp⟩ := List.mem_map.mp h
      rw [hempty] at hq
      obtain ⟨j, hj, hjq⟩ := List.mem_map.mp hq
      rw [List.mem_range'_1] at hj
      have hpq : q = path := by injection hqp
      exact ⟨j, by omega, by rw [← hpq, hjq], hall j hj.1 (by omega)⟩
  refine ⟨fun v w p q hp hq hpq h => hpq (patchName_inj L v w p q hp hq h),
    fun i j hij h => hij (hinj i j h), _, convert_ops L k2c D src dst b hread hmk hw,
    ?_, hrem, ?_⟩
  · intro j hj
    exact List.mem_append_left _ (List.mem_map.mpr ⟨j, List.mem_range.mpr hj, rfl⟩)
  · intro j hj hname
    have hkeep : j < b.length / 32 - t := by
      by_contra hnot
      exact hname (hall j (by omega) hj)
    refine ⟨fun hmem => ?_, fun fs => ?_⟩
    · obtain ⟨i, -, hi, hin⟩ := hrem _ hmem
      rw [← hinj j i hi] at hin
      exact hname hin
    · rw [hempty]
      exact (convert_files (fileAt L dst b) (xmlAt L k2c b) (b.length / 32) t htk
        (fun i _ i' _ h => hinj i i' h) fs).1 j hkeep

set_option maxRecDepth 100000 in
theorem patchName_no_collision_witness :
    (withNameBytes [0x41]).patchName sampleLib 1 ≠ (withNameBytes [0x41]).patchName sampleLib 10 ∧
    fileAt sampleLib "output" sampleBank 0 ≠ fileAt sampleLib "output" sampleBank 1 ∧
    ∃ ops, convert sampleLib keywordToCategory (sampleDisk sampleBank) "voice.dat" "output" =
        .ok ops ∧
      FileOp.remove "output/MUCOM88-000-A.rym2612" ∉ ops := by
  obtain ⟨h1, h2, ops, hconv, -, -, hkeep⟩ :=
    patchName_no_collision sampleLib keywordToCategory (sampleDisk sampleBank) "voice.dat"
      "output" sampleBank rfl rfl (fun _ _ => rfl) (sampleLib_join "output")
  have hname : fileAt sampleLib "output" sampleBank 0 = "output/MUCOM88-000-A.rym2612" := by
    decide
  refine ⟨h1 _ _ 1 10 (by decide) (by decide) (by decide), h2 0 1 (by decide), ops, hconv, ?_⟩
  rw [← hname]
  exact (hkeep 0 (by decide) (by decide)).1

end Mucom88
